import Mathlib

/-!
Verification of the SMILES decoding core (`Molecule.py`) of the IFG repository.

The Python source is shallowly embedded: strings become `List Char`, Python
exceptions (IndexError, KeyError, ValueError, UnboundLocalError) become `none`
in `Option`-valued functions, Python's negative-index wrap-around is modelled
by `pyGet`, and the float `ringCount = len(RING_SELF) / 2` is modelled in `ℚ`.
Loops that move a cursor one position per iteration are written with an
explicit fuel argument that is provably larger than the number of reachable
cursor values, so the fuel can never run out before the loop's own exit or
error condition fires.
-/

namespace IFG

/-- Embedding of `Atom.py`'s `Atom`: an index / symbol record ("Modelled from
the spec: the `Atom` class imported by `Molecule.py` is not under `src/`; the
spec describes it as `{index, symbol}`, immutable"). The index is an `Int`
because the bond walks of `Molecule.py` decrement it below zero on some
inputs. -/
structure Atom where
  index : Int
  symbol : List Char
deriving DecidableEq, Repr

/-- The `self.ATOMS` list of `Molecule.__init__`. -/
def ATOMS : List Char :=
  ['C', 'O', 'N', 'S', 'I', 'F', 'P',
   'c', 'n', 'o', 's', 'i', 'f', 'p',
   'R',
   'X', 'Z']

/-- The `self.BONDS` list. -/
def BONDS : List Char := ['=', '#']

/-- The `self.BRACKETS` list. -/
def BRACKETS : List Char := ['[', ']']

/-- The `self.CHARGES` list. -/
def CHARGES : List Char := ['+', '-']

/-- The `self.NUMBERS` list. -/
def NUMBERS : List Char := ['1', '2', '3', '4', '5', '6', '7', '8', '9']

/-- The `self.LINEARSYMBOLS` list (`ATOMS + BONDS + BRACKETS + CHARGES`). -/
def LINEARSYMBOLS : List Char := ATOMS ++ BONDS ++ BRACKETS ++ CHARGES

/-- Python string indexing `s[i]`: a negative index wraps once from the end,
anything outside `[-len, len)` raises IndexError (`none`). -/
def pyGet (s : List Char) (i : Int) : Option Char :=
  if 0 ≤ i then s.get? i.toNat
  else if -(s.length : Int) ≤ i then s.get? (i + s.length).toNat
  else none

/-- Python `c.islower()` for a single character (ASCII alphabet). -/
def pyLower (c : Char) : Bool := c.isLower

/-- Python `c.isupper()` for a single character (ASCII alphabet). -/
def pyUpper (c : Char) : Bool := c.isUpper

/-- Python `c.isalpha()` restricted to ASCII, i.e. the `[a-zA-Z]` regex
`ATOM_REGEX` of `Molecule.__init__`. -/
def pyAlpha (c : Char) : Bool := c.isUpper || c.isLower

/-- Python `str.islower()` on a string: at least one cased character and every
cased character lower-case. -/
def strIslower (l : List Char) : Bool :=
  l.any pyAlpha && l.all fun c => !pyAlpha c || c.isLower

/-- Python `str.isupper()` on a string. -/
def strIsupper (l : List Char) : Bool :=
  l.any pyAlpha && l.all fun c => !pyAlpha c || c.isUpper

/-- Backward scan of `Molecule.getChargedGroup` (the `']'` entry case): walk
left accumulating characters until a `'['` is found; the source's final
`'[' + chargedGroup[::-1]` is obtained here by consing onto the accumulator.
Cursor moves one step left per iteration, so fuel `2*len+2` cannot be
exhausted before the scan leaves the valid Python index range. -/
def cgBack (s : List Char) : Nat → Int → List Char → Option (List Char)
  | 0, _, _ => none
  | fuel + 1, pos, acc =>
    match pyGet s pos with
    | none => none
    | some c => if c = '[' then some ('[' :: acc) else cgBack s fuel (pos - 1) (c :: acc)

/-- Forward scan of `Molecule.getChargedGroup` (the `'['` entry case): walk
right accumulating characters until a `']'` is found. -/
def cgFwd (s : List Char) : Nat → Int → List Char → Option (List Char)
  | 0, _, _ => none
  | fuel + 1, pos, acc =>
    match pyGet s pos with
    | none => none
    | some c => if c = ']' then some (acc ++ [']']) else cgFwd s fuel (pos + 1) (acc ++ [c])

/-- Embedding of `Molecule.getChargedGroup`: dispatch on the character at
`pos`; a non-bracket raises ValueError (`none`). -/
def getChargedGroup (s : List Char) (pos : Int) : Option (List Char) :=
  match pyGet s pos with
  | none => none
  | some c =>
    if c = ']' then cgBack s (2 * s.length + 2) pos []
    else if c = '[' then cgFwd s (2 * s.length + 2) pos []
    else none

/-- Embedding of `Molecule.DLAtoSARconversion`: replace every `"Br"` by `'X'`
and every `"Cl"` by `'Z'`, scanning left to right, consuming two characters on
a match and one otherwise. -/
def dlaToSar : List Char → List Char
  | [] => []
  | [c] => [c]
  | a :: b :: rest =>
    if a = 'B' ∧ b = 'r' then 'X' :: dlaToSar rest
    else if a = 'C' ∧ b = 'l' then 'Z' :: dlaToSar rest
    else a :: dlaToSar (b :: rest)

/-- The scan `while smiles[cutPos] != ']'` of `Molecule.formatSmiles`: first
position `≥ pos` holding `']'`; running past the end is an IndexError. -/
def findCloseBracket (s : List Char) : Nat → Nat → Option Nat
  | 0, _ => none
  | fuel + 1, pos =>
    match s.get? pos with
    | none => none
    | some c => if c = ']' then some pos else findCloseBracket s fuel (pos + 1)

/-- The main loop of `Molecule.formatSmiles`: scan for an `'H'`, remembering
the most recent `'['` (`startBracketPos`). On an `'H'` at `pos`, cut out
`smiles[0:startBracketPos] + smiles[startBracketPos+1] + smiles[cutPos+1:]`.
Returns `some none` when the loop finishes without an `'H'`, `some (some r)`
for a cut result `r`, and `none` for IndexError / unbound `startBracketPos`. -/
def findHCut (s : List Char) : Nat → Nat → Option Nat → Option (Option (List Char))
  | 0, _, _ => none
  | fuel + 1, pos, lastBracket =>
    match s.get? pos with
    | none => some none
    | some c =>
      let lb := if c = '[' then some pos else lastBracket
      if c = 'H' then
        match findCloseBracket s (s.length + 1) pos with
        | none => none
        | some cut =>
          match lb with
          | none => none
          | some b =>
            match s.get? (b + 1) with
            | none => none
            | some cb => some (some (s.take b ++ [cb] ++ s.drop (cut + 1)))
      else findHCut s fuel (pos + 1) lb

/-- Fueled recursion of `Molecule.formatSmiles`: cut one explicit-hydrogen
bracket group, recurse on the shorter string, and apply
`DLAtoSARconversion` to the result of every level (as the source does). -/
def formatSmilesF : Nat → List Char → Option (List Char)
  | 0, _ => none
  | fuel + 1, s =>
    match findHCut s (s.length + 1) 0 none with
    | none => none
    | some none => some (dlaToSar s)
    | some (some r) =>
      match formatSmilesF fuel r with
      | none => none
      | some r2 => some (dlaToSar r2)

/-- Embedding of `Molecule.formatSmiles`. Each cut strictly shortens the
string, so fuel `len+1` suffices for every recursion the source performs. -/
def formatSmiles (s : List Char) : Option (List Char) :=
  formatSmilesF (s.length + 1) s

/-- `Molecule.DLAtoSARconversion` as called during `__init__`: the
`self.formatSmiles(smiles)` call at line 74 runs before `self.DLA_TO_SAR` is
assigned at line 81, so the conversion loop's very first membership test
`DLA in self.DLA_TO_SAR` (line 642) raises AttributeError. The loop body —
and with it the table read — is skipped only for the empty string, which
returns the empty result. -/
def dlaToSarInit : List Char → Option (List Char)
  | [] => some []
  | _ :: _ => none

/-- Fueled recursion of `Molecule.formatSmiles` as called during `__init__`,
before the DLA table is bound: identical control flow to `formatSmilesF`, with
every `DLAtoSARconversion` call replaced by its constructor-time behaviour,
including the source's `reFormatted == ""` sentinel branch that applies the
conversion to the current string instead. -/
def formatSmilesInitF : Nat → List Char → Option (List Char)
  | 0, _ => none
  | fuel + 1, s =>
    match findHCut s (s.length + 1) 0 none with
    | none => none
    | some none => dlaToSarInit s
    | some (some r) =>
      match formatSmilesInitF fuel r with
      | none => none
      | some r2 => if r2 = [] then dlaToSarInit s else dlaToSarInit r2

/-- The `__init__`-time `Molecule.formatSmiles` call of line 74. -/
def formatSmilesInit (s : List Char) : Option (List Char) :=
  formatSmilesInitF (s.length + 1) s

/-- Decidable "contains a two-letter element symbol" (`"Br"` or `"Cl"` as a
substring), the condition of claim C8. -/
def hasDLA : List Char → Bool
  | [] => false
  | [_] => false
  | a :: b :: rest => (a = 'B' && b = 'r') || (a = 'C' && b = 'l') || hasDLA (b :: rest)

/-- State of the `Molecule._RING` scan: the running atom index and symbol, the
transient `evaluatedNumbers` map (digit value to pending opening position),
and the four ring containers. The extra `pairs` field records, at the moment
`_RING` pairs a closing digit with its stored opening position, that
`(openingPosition, closingPosition)` pair; it instruments the scan without
altering any source container. -/
structure RingState where
  atomIndex : Int
  atomSymbol : List Char
  evaluated : List (Char × Nat)
  ringSelf : List (Nat × Atom)
  complements : List (Nat × Atom)
  opens : List Nat
  closes : List Nat
  pairs : List (Nat × Nat)
deriving DecidableEq, Repr

/-- One iteration of the `Molecule._RING` loop at string position `pos` with
character `c`. -/
def ringStep (s : List Char) (pos : Nat) (c : Char) (st : RingState) : Option RingState :=
  let ai := if c ∈ ATOMS then st.atomIndex + 1 else st.atomIndex
  let asym0 := if c ∈ ATOMS then [c] else st.atomSymbol
  if c ∈ NUMBERS then
    match (if pyGet s ((pos : Int) - 1) = some ']'
           then getChargedGroup s ((pos : Int) - 1)
           else some asym0) with
    | none => none
    | some sym =>
      let atom : Atom := ⟨ai, sym⟩
      match st.evaluated.lookup c with
      | some initPos =>
        match (st.ringSelf ++ [(pos, atom)]).lookup initPos with
        | none => none
        | some openAtom =>
          some { st with
            atomIndex := ai
            atomSymbol := sym
            ringSelf := st.ringSelf ++ [(pos, atom)]
            complements := st.complements ++ [(initPos, atom), (pos, openAtom)]
            closes := st.closes ++ [pos]
            evaluated := st.evaluated.filter fun kv => kv.1 ≠ c
            pairs := st.pairs ++ [(initPos, pos)] }
      | none =>
        some { st with
          atomIndex := ai
          atomSymbol := sym
          ringSelf := st.ringSelf ++ [(pos, atom)]
          opens := st.opens ++ [pos]
          evaluated := st.evaluated ++ [(c, pos)] }
  else some { st with atomIndex := ai, atomSymbol := asym0 }

/-- The `Molecule._RING` loop from position `pos` on. Fuel `len+1` cannot run
out before the position scan passes the end of the string. -/
def ringAux (s : List Char) : Nat → Nat → RingState → Option RingState
  | 0, _, _ => none
  | fuel + 1, pos, st =>
    match s.get? pos with
    | none => some st
    | some c =>
      match ringStep s pos c st with
      | none => none
      | some st2 => ringAux s fuel (pos + 1) st2

/-- Embedding of `Molecule._RING`. -/
def ringScan (s : List Char) : Option RingState :=
  ringAux s (s.length + 1) 0 ⟨-1, [], [], [], [], [], [], []⟩

/-- Python list index resolution: effective position of index `i` in a list of
length `n` (negative indices wrap once), `none` for IndexError. -/
def pyIdx (n : Nat) (i : Int) : Option Nat :=
  if 0 ≤ i then (if i < (n : Int) then some i.toNat else none)
  else if 0 ≤ i + n then some (i + n).toNat else none

/-- Python `l[i].append(x)` on a list of lists. -/
def pyAppendAt (l : List (List Int)) (i : Int) (x : Int) : Option (List (List Int)) :=
  match pyIdx l.length i with
  | none => none
  | some j =>
    match l.get? j with
    | none => none
    | some inner => some (l.set j (inner ++ [x]))

/-- Python `del l[i]` on a list of lists. -/
def pyDelAt (l : List (List Int)) (i : Int) : Option (List (List Int)) :=
  match pyIdx l.length i with
  | none => none
  | some j => some (l.eraseIdx j)

/-- The inner `while RN != symbol` walk of `Molecule._INCIDES`: from position
`rnPos`, track per-scope index lists until the opening digit `sym` reappears;
return the surviving scope lists and the closing position. Reading past the
end of the string is an IndexError (`none`), as are the Python list errors of
`scopeIndices[scope]` and `del scopeIndices[scope]`. The position advances by
one per iteration, so fuel `len+1` cannot run out first. -/
def incWalk (s : List Char) (sym : Char) :
    Nat → Nat → List (List Int) → Int → Int → Option (List (List Int) × Nat)
  | 0, _, _, _, _ => none
  | fuel + 1, rnPos, scopeIndices, scope, rnIndex =>
    match s.get? rnPos with
    | none => none
    | some rn =>
      if rn = sym then some (scopeIndices, rnPos)
      else
        let rnIndex1 := if rn ∈ ATOMS then rnIndex + 1 else rnIndex
        match (if rn ∈ ATOMS then
                 (if (scopeIndices.length : Int) = scope
                  then some (scopeIndices ++ [[rnIndex1]])
                  else pyAppendAt scopeIndices scope rnIndex1)
               else some scopeIndices) with
        | none => none
        | some sc1 =>
          let scope1 := if rn = '(' then scope + 1 else scope
          match (if rn = ')' then pyDelAt sc1 scope1 else some sc1) with
          | none => none
          | some sc2 =>
            let scope2 := if rn = ')' then scope1 - 1 else scope1
            incWalk s sym fuel (rnPos + 1) sc2 scope2 rnIndex1

/-- State of the `Molecule._INCIDES` scan. -/
structure IncState where
  atomIndex : Int
  evalPositions : List Nat
  arom : List Int
  cyclic : List Int
deriving DecidableEq, Repr

/-- One iteration of the main `Molecule._INCIDES` loop at position `pos` with
character `c`: lower-case characters record an aromatic index (and skip the
rest of the iteration), unevaluated digits launch the cyclic-index walk. -/
def incStep (s : List Char) (pos : Nat) (c : Char) (st : IncState) : Option IncState :=
  let ai := if c ∈ ATOMS then st.atomIndex + 1 else st.atomIndex
  if pyLower c ∧ ai ∉ st.arom then
    some { st with atomIndex := ai, arom := st.arom ++ [ai] }
  else if c ∈ NUMBERS ∧ pos ∉ st.evalPositions then
    match incWalk s c (s.length + 1) (pos + 1) [[ai]] 0 ai with
    | none => none
    | some (scopeIndices, closePos) =>
      some { st with
        atomIndex := ai
        evalPositions := (st.evalPositions ++ [pos]) ++ [closePos]
        cyclic := scopeIndices.foldl (fun acc l =>
          l.foldl (fun acc2 i => if i ∈ acc2 then acc2 else acc2 ++ [i]) acc) st.cyclic }
  else some { st with atomIndex := ai }

/-- The `Molecule._INCIDES` main loop from position `pos` on. -/
def incAux (s : List Char) : Nat → Nat → IncState → Option IncState
  | 0, _, _ => none
  | fuel + 1, pos, st =>
    match s.get? pos with
    | none => some st
    | some c =>
      match incStep s pos c st with
      | none => none
      | some st2 => incAux s fuel (pos + 1) st2

/-- Embedding of `Molecule._INCIDES`. -/
def incides (s : List Char) : Option IncState :=
  incAux s (s.length + 1) 0 ⟨-1, [], [], []⟩

/-- The mixed-case loop of `Molecule._RING_COUNTS` over the ring-opening
positions, accumulating the aromatic and non-aromatic counts. A missing
complement is the source's KeyError, and reading `SMILES[pos+1]` past the end
is its IndexError. -/
def ringCountsLoop (s : List Char) (rs : RingState) :
    List Nat → ℚ → ℚ → Option (ℚ × ℚ)
  | [], a, n => some (a, n)
  | pos :: rest, a, n =>
    match rs.ringSelf.lookup pos with
    | none => none
    | some ringOpen =>
      match rs.complements.lookup pos with
      | none => none
      | some ringClose =>
        if strIslower ringOpen.symbol ∧ strIslower ringClose.symbol then
          match s.get? (pos + 1) with
          | none => none
          | some c =>
            if c ∈ ATOMS then
              if pyLower c then ringCountsLoop s rs rest (a + 1) n
              else if pyUpper c then ringCountsLoop s rs rest a (n + 1)
              else ringCountsLoop s rs rest a n
            else ringCountsLoop s rs rest (a + 1) n
        else if strIsupper ringOpen.symbol ∧ strIsupper ringClose.symbol then
          match s.get? (pos + 1) with
          | none => none
          | some c =>
            if c ∈ ATOMS then
              if pyLower c then ringCountsLoop s rs rest (a + 1) n
              else if pyUpper c then ringCountsLoop s rs rest a (n + 1)
              else ringCountsLoop s rs rest a n
            else ringCountsLoop s rs rest a (n + 1)
        else ringCountsLoop s rs rest a (n + 1)

/-- Embedding of `Molecule._RING_COUNTS`: the uniform-case fast paths assign
one of the counts to `ringCount` directly; the mixed-case path classifies each
opened ring junction. Returns `(aromaticCount, nonAromaticCount)`. -/
def ringCounts (s : List Char) (rs : RingState) (ringCount : ℚ) : Option (ℚ × ℚ) :=
  let allAtoms := s.filter pyAlpha
  if strIslower allAtoms then some (ringCount, 0)
  else if strIsupper allAtoms then some (0, ringCount)
  else ringCountsLoop s rs rs.opens 0 0

/-- Python slice `s[a:b]`: negative endpoints wrap once, then both are clamped
into `[0, len]`; a slice never raises. -/
def pySlice (s : List Char) (a b : Int) : List Char :=
  let n : Int := s.length
  let a2 := if a < 0 then max (a + n) 0 else min a n
  let b2 := if b < 0 then max (b + n) 0 else min b n
  (s.drop a2.toNat).take (b2 - a2).toNat

/-- Embedding of `Molecule.determineAlcoholGroup`: the four positional rules
under which the oxygen at string position `pos` (atom index `atomIndex`) is
appended to `ALCOHOLICINDICES` (here the accumulator `acc`). -/
def alcoholCheck (s : List Char) (pos : Nat) (atomIndex : Int) (acc : List Int) :
    Option (List Int) :=
  if pos = s.length - 1 then
    match pyGet s ((pos : Int) - 1) with
    | none => none
    | some p =>
      if p.toUpper = 'C' ∨ p ∈ NUMBERS ∨ p = ')' then some (acc ++ [atomIndex]) else some acc
  else if atomIndex = 0 then
    match s.get? (pos + 1) with
    | none => none
    | some q =>
      if q.toUpper = 'C' then some (acc ++ [atomIndex])
      else if pySlice s ((pos : Int) - 1) ((pos : Int) + 2) = ['(', 'O', ')'] then
        some (acc ++ [atomIndex])
      else
        match s.get? (pos + 1), pyGet s ((pos : Int) - 1) with
        | some q2, some p =>
          if q2 = ')' ∧ p ∉ BONDS ∧ p ∉ BRACKETS then some (acc ++ [atomIndex]) else some acc
        | _, _ => none
  else if pySlice s ((pos : Int) - 1) ((pos : Int) + 2) = ['(', 'O', ')'] then
    some (acc ++ [atomIndex])
  else
    match s.get? (pos + 1), pyGet s ((pos : Int) - 1) with
    | some q2, some p =>
      if q2 = ')' ∧ p ∉ BONDS ∧ p ∉ BRACKETS then some (acc ++ [atomIndex]) else some acc
    | _, _ => none

/-- State of the `Molecule.initializeAtomData` scan: running atom index, the
atom map in insertion order, and the alcoholic index list. -/
structure AtomScanState where
  atomIndex : Int
  atomData : List (Int × Atom)
  alcohols : List Int
deriving DecidableEq, Repr

/-- One iteration of `Molecule.initializeAtomData` at position `pos` with
character `c`: every recognized atom character gets the next dense index; a
directly preceding `'['` swaps in the full bracketed charge group as the
symbol; oxygens run the alcohol rules. -/
def atomStep (s : List Char) (pos : Nat) (c : Char) (st : AtomScanState) :
    Option AtomScanState :=
  if c ∈ ATOMS then
    let idx := st.atomIndex + 1
    match (if pyGet s ((pos : Int) - 1) = some '['
           then getChargedGroup s ((pos : Int) - 1)
           else some [c]) with
    | none => none
    | some sym =>
      let st1 : AtomScanState :=
        { st with atomIndex := idx, atomData := st.atomData ++ [(idx, ⟨idx, sym⟩)] }
      if c = 'O' then
        match alcoholCheck s pos idx st1.alcohols with
        | none => none
        | some al => some { st1 with alcohols := al }
      else some st1
  else some st

/-- The `Molecule.initializeAtomData` loop from position `pos` on. -/
def atomAux (s : List Char) : Nat → Nat → AtomScanState → Option AtomScanState
  | 0, _, _ => none
  | fuel + 1, pos, st =>
    match s.get? pos with
    | none => some st
    | some c =>
      match atomStep s pos c st with
      | none => none
      | some st2 => atomAux s fuel (pos + 1) st2

/-- Embedding of `Molecule.initializeAtomData` (which also fills
`ALCOHOLICINDICES`). -/
def atomScan (s : List Char) : Option AtomScanState :=
  atomAux s (s.length + 1) 0 ⟨-1, [], []⟩

/-- Embedding of `Molecule.getLeftBond`'s backward `while` loop. `lnPos` and
the current character `ln` evolve exactly as `LNPos`/`LN` do in the source:
the loop exits on a linear symbol at scope `≤ 0`, a closing parenthesis at
scope `-1` resets the scope (the sibling-branch rule), and walking below
position `0` returns the empty result `some none`. The position decreases by
one per iteration, so fuel `len+2` cannot run out first. -/
def leftWalk (s : List Char) (explicitBond : List Char) :
    Nat → Int → Char → Int → Int → Option (Option Atom)
  | 0, _, _, _, _ => none
  | fuel + 1, lnPos, ln, lnIndex, scope =>
    if ln ∈ LINEARSYMBOLS ∧ scope ≤ 0 then
      let lnIndex2 := lnIndex - 1
      if ln = ']' then
        match getChargedGroup s lnPos with
        | none => none
        | some cg => some (some ⟨lnIndex2, explicitBond ++ cg⟩)
      else some (some ⟨lnIndex2, explicitBond ++ [ln]⟩)
    else
      let scope1 := if ln = ')' ∧ scope = -1 then 0 else scope
      let scope2 :=
        if ln = ')' then scope1 + 1
        else if ln = '(' then scope1 - 1
        else scope1
      let lnIndex2 :=
        if ln ≠ ')' ∧ ln ≠ '(' ∧ ln ∈ ATOMS then lnIndex - 1 else lnIndex
      let lnPos2 := lnPos - 1
      if lnPos2 < 0 then some none
      else
        match pyGet s lnPos2 with
        | none => none
        | some ln2 => leftWalk s explicitBond fuel lnPos2 ln2 lnIndex2 scope2

/-- Embedding of `Molecule.getLeftBond`: step one position left (below `0`
means no left bond), capture an explicit bond symbol — whose own unchecked
step left may wrap to the end of the string, as in the source — and run the
backward walk. `some none` is the source's `return []`. -/
def getLeftBond (s : List Char) (lnPos0 lnIndex : Int) : Option (Option Atom) :=
  let lnPos := lnPos0 - 1
  if lnPos < 0 then some none
  else
    match pyGet s lnPos with
    | none => none
    | some ln =>
      if ln ∈ BONDS then
        let lnPos1 := lnPos - 1
        match pyGet s lnPos1 with
        | none => none
        | some ln1 => leftWalk s [ln] (s.length + 2) lnPos1 ln1 lnIndex 0
      else leftWalk s [] (s.length + 2) lnPos ln lnIndex 0

/-- Embedding of `Molecule.getRightBonds`, entry and loop fused into one
fueled recursion. In entry mode (`entry = true`) the position argument is
`RNPos` after the source's initial `RNPos += 1`: past the end or a closing
parenthesis means no right bonds. In loop mode the character at `rnPos`
drives one iteration of the source's `while` loop: a depth-0 opening
parenthesis recursively captures the first bond of the nested branch, a
depth-0 digit appends the ring partner from `RING_COMPLEMENTS` (KeyError when
unpaired), and stepping past the end or below scope `0` returns the bonds
accumulated so far. The loop exits into the `while`-`else` branch on a linear
symbol at scope `≤ 0`. Along any chain of recursive calls the position is
nondecreasing, strictly increases on loop steps, and nested entries start
strictly to the right of their caller's entry, so `(len+3)*(len+3)` fuel
cannot run out before the source's own loop exits. -/
def rightWalk (s : List Char) (comp : List (Nat × Atom)) :
    Nat → Bool → Nat → Int → Int → List Atom → Option (List Atom)
  | 0, _, _, _, _, _ => none
  | fuel + 1, true, rnPos, rnIndex, _, _ =>
    (match s.get? rnPos with
     | none => some []
     | some rn =>
       if rn = ')' then some []
       else rightWalk s comp fuel false rnPos rnIndex 0 [])
  | fuel + 1, false, rnPos, rnIndex, scope, acc =>
    (match s.get? rnPos with
     | none => none
     | some rn =>
       if rn ∈ LINEARSYMBOLS ∧ scope ≤ 0 then
         let rnIndex2 := rnIndex + 1
         if rn ∈ ATOMS then some (acc ++ [⟨rnIndex2, [rn]⟩])
         else if rn ∈ BONDS then
           match s.get? (rnPos + 1) with
           | none => none
           | some rn2 =>
             if rn2 = '[' then
               match getChargedGroup s ((rnPos : Int) + 1) with
               | none => none
               | some cg => some (acc ++ [⟨rnIndex2, rn :: cg⟩])
             else some (acc ++ [⟨rnIndex2, [rn, rn2]⟩])
         else if rn = '[' then
           match getChargedGroup s (rnPos : Int) with
           | none => none
           | some cg => some (acc ++ [⟨rnIndex2, cg⟩])
         else some acc
       else
         match (if rn = '(' ∧ scope = 0 then
                  rightWalk s comp fuel true (rnPos + 1) rnIndex 0 []
                else some []) with
         | none => none
         | some inner =>
           let acc1 :=
             match inner with
             | [] => acc
             | b :: _ => acc ++ [b]
           let scope1 := if rn = '(' then scope + 1 else scope
           let scope2 := if rn = ')' then scope1 - 1 else scope1
           let rnIndex1 := if rn ∈ ATOMS then rnIndex + 1 else rnIndex
           match (if scope2 = 0 ∧ rn ∈ NUMBERS then
                    (match comp.lookup rnPos with
                     | none => none
                     | some partner => some (acc1 ++ [partner]))
                  else some acc1) with
           | none => none
           | some acc2 =>
             let rnPos1 := rnPos + 1
             if rnPos1 ≥ s.length ∨ scope2 < 0 then some acc2
             else rightWalk s comp fuel false rnPos1 rnIndex1 scope2 acc2)

/-- Embedding of the `Molecule.getRightBonds` entry (`RNPos += 1` applied to
the caller's position argument, then entry mode). -/
def getRightBonds (s : List Char) (comp : List (Nat × Atom)) (pos : Nat) (idx : Int) :
    Option (List Atom) :=
  rightWalk s comp ((s.length + 3) * (s.length + 3)) true (pos + 1) idx 0 []

/-- One iteration of `Molecule.initializeBondData` at position `pos` with
character `c`: for an atom character, resolve the single left bond and all
right bonds (from the surrounding brackets when the atom is a charge group)
and record their concatenation under the atom's index. -/
def bondStep (s : List Char) (comp : List (Nat × Atom)) (pos : Nat) (c : Char)
    (st : Int × List (Int × List Atom)) : Option (Int × List (Int × List Atom)) :=
  if c ∈ ATOMS then
    let idx := st.1 + 1
    let charged := pyGet s ((pos : Int) - 1) = some '['
    match (if charged then getLeftBond s ((pos : Int) - 1) idx
           else getLeftBond s (pos : Int) idx) with
    | none => none
    | some lb =>
      match (if charged then getRightBonds s comp (pos + 2) idx
             else getRightBonds s comp pos idx) with
      | none => none
      | some rbs =>
        let bonds := (match lb with | none => ([] : List Atom) | some a => [a]) ++ rbs
        some (idx, st.2 ++ [(idx, bonds)])
  else some st

/-- The `Molecule.initializeBondData` loop from position `pos` on. -/
def bondAux (s : List Char) (comp : List (Nat × Atom)) :
    Nat → Nat → Int × List (Int × List Atom) → Option (Int × List (Int × List Atom))
  | 0, _, _ => none
  | fuel + 1, pos, st =>
    match s.get? pos with
    | none => some st
    | some c =>
      match bondStep s comp pos c st with
      | none => none
      | some st2 => bondAux s comp fuel (pos + 1) st2

/-- Embedding of `Molecule.initializeBondData`. -/
def bondScan (s : List Char) (comp : List (Nat × Atom)) :
    Option (List (Int × List Atom)) :=
  match bondAux s comp (s.length + 1) 0 (-1, []) with
  | none => none
  | some st => some st.2

/-- Match of the `AMINOACID` regex `\[[nN]H[23]?\+\]` at start position `i`. -/
def aminoAt (s : List Char) (i : Nat) : Bool :=
  s.get? i == some '[' &&
  (s.get? (i + 1) == some 'n' || s.get? (i + 1) == some 'N') &&
  s.get? (i + 2) == some 'H' &&
  ((s.get? (i + 3) == some '+' && s.get? (i + 4) == some ']') ||
   ((s.get? (i + 3) == some '2' || s.get? (i + 3) == some '3') &&
    s.get? (i + 4) == some '+' && s.get? (i + 5) == some ']'))

/-- Nonempty match set of the `AMINOACID` regex over the raw input string. -/
def aminoMatch (s : List Char) : Bool :=
  (List.range s.length).any (aminoAt s)

/-- The Molecule entity: the public fields of `Molecule.__init__` after a
successful decode. -/
structure Molecule where
  SMILES : List Char
  NAME : List Char
  RING_OPEN_POSITIONS : List Nat
  RING_SELF : List (Nat × Atom)
  RING_CLOSE_POSITIONS : List Nat
  RING_COMPLEMENTS : List (Nat × Atom)
  AROMATICINDICES : List Int
  CYCLICINDICES : List Int
  ringCount : ℚ
  aromaticCount : ℚ
  nonAromaticCount : ℚ
  ALCOHOLICINDICES : List Int
  atomData : List (Int × Atom)
  atomCount : Nat
  bondData : List (Int × List Atom)
  chargedMol : Bool
  AMINOACID : Bool
deriving DecidableEq, Repr

/-- Embedding of `Molecule.__init__` in the source's statement order: the
`formatSmiles` call of line 74 runs before the `DLA_TO_SAR` table is assigned
at line 81, so normalization is `formatSmilesInit` — it raises AttributeError
for every input that reaches the conversion loop's table read, and only the
empty string gets past it. The remaining stages (ring scan, index sets, ring
counts, upper-case fold, atom and bond data, flags) follow as in the source;
any uncaught Python exception on the way is `none`: no Molecule. -/
def Molecule.construct (raw name : List Char) : Option Molecule :=
  match formatSmilesInit raw with
  | none => none
  | some s0 =>
    match ringScan s0 with
    | none => none
    | some rs =>
      match incides s0 with
      | none => none
      | some inc =>
        let ringCount : ℚ := (rs.ringSelf.length : ℚ) / 2
        match ringCounts s0 rs ringCount with
        | none => none
        | some counts =>
          let su := s0.map Char.toUpper
          match atomScan su with
          | none => none
          | some ast =>
            match bondScan su rs.complements with
            | none => none
            | some bd =>
              some {
                SMILES := su
                NAME := name
                RING_OPEN_POSITIONS := rs.opens
                RING_SELF := rs.ringSelf
                RING_CLOSE_POSITIONS := rs.closes
                RING_COMPLEMENTS := rs.complements
                AROMATICINDICES := inc.arom
                CYCLICINDICES := inc.cyclic
                ringCount := ringCount
                aromaticCount := counts.1
                nonAromaticCount := counts.2
                ALCOHOLICINDICES := ast.alcohols
                atomData := ast.atomData
                atomCount := ast.atomData.length
                bondData := bd
                chargedMol := raw.any fun c => c ∈ CHARGES
                AMINOACID := aminoMatch raw }

/-- `Molecule.__init__` under the attribute order the specification assumes:
`DLA_TO_SAR` bound before the line-74 normalization call (line 81 moved above
line 74), so normalization is the table-bound `formatSmiles`. This repaired
constructor performs the decode the spec attributes to the program, while
`Molecule.construct` is the source's actual order; the code-bug claims
exhibit their divergence against it. -/
def Molecule.constructFixed (raw name : List Char) : Option Molecule :=
  match formatSmiles raw with
  | none => none
  | some s0 =>
    match ringScan s0 with
    | none => none
    | some rs =>
      match incides s0 with
      | none => none
      | some inc =>
        let ringCount : ℚ := (rs.ringSelf.length : ℚ) / 2
        match ringCounts s0 rs ringCount with
        | none => none
        | some counts =>
          let su := s0.map Char.toUpper
          match atomScan su with
          | none => none
          | some ast =>
            match bondScan su rs.complements with
            | none => none
            | some bd =>
              some {
                SMILES := su
                NAME := name
                RING_OPEN_POSITIONS := rs.opens
                RING_SELF := rs.ringSelf
                RING_CLOSE_POSITIONS := rs.closes
                RING_COMPLEMENTS := rs.complements
                AROMATICINDICES := inc.arom
                CYCLICINDICES := inc.cyclic
                ringCount := ringCount
                aromaticCount := counts.1
                nonAromaticCount := counts.2
                ALCOHOLICINDICES := ast.alcohols
                atomData := ast.atomData
                atomCount := ast.atomData.length
                bondData := bd
                chargedMol := raw.any fun c => c ∈ CHARGES
                AMINOACID := aminoMatch raw }

/-- Positions `< n` at which the character `d` occurs in `s`, in ascending
order. -/
def occUpTo (d : Char) (s : List Char) (n : Nat) : List Nat :=
  (List.range n).filter fun p => s.get? p == some d

/-- All occurrence positions of `d` in `s`. -/
def occAll (d : Char) (s : List Char) : List Nat := occUpTo d s s.length

/-- Consecutive pairing of a list: 1st with 2nd, 3rd with 4th, and so on;
the specification-side description of the ring pairer's behaviour. -/
def chunk2 : List Nat → List (Nat × Nat)
  | [] => []
  | [_] => []
  | a :: b :: t => (a, b) :: chunk2 t

/-- Invariant of the `_INCIDES` main loop for a fixed digit `d`: the evaluated
positions among `d`'s occurrences form an even-length prefix of the occurrence
list, and the first unevaluated occurrence, if any, lies at or beyond the
current scan position. -/
def IncInv (d : Char) (s : List Char) (pos : Nat) (E : List Nat) : Prop :=
  ∃ j, 2 * j ≤ (occAll d s).length ∧
    (∀ p ∈ occAll d s, (p ∈ E ↔ p ∈ (occAll d s).take (2 * j))) ∧
    (∀ q, (occAll d s).get? (2 * j) = some q → pos ≤ q)

/-- Invariant of the `_RING` loop at scan position `pos`: the lengths of the
ring containers are in step, the pending map `evaluated` holds exactly the
digits with an odd occurrence count so far (keyed nodup, mapping each digit to
its last occurrence position, which carries that digit and is no complement
key), the instrumentation `pairs` holds per digit the consecutive pairing of
its occurrence positions so far, and the complement map's keys are exactly the
pair endpoints, each direction looking up the partner's ring atom. -/
structure RingI (s : List Char) (pos : Nat) (st : RingState) : Prop where
  selfLen : st.ringSelf.length = st.opens.length + st.closes.length
  openLen : st.opens.length = st.closes.length + st.evaluated.length
  keysNum : ∀ kv ∈ st.evaluated, kv.1 ∈ NUMBERS
  keysNodup : (st.evaluated.map Prod.fst).Nodup
  pendChar : ∀ kv ∈ st.evaluated, s.get? kv.2 = some kv.1
  pendBound : ∀ kv ∈ st.evaluated, kv.2 < pos
  selfBound : ∀ kv ∈ st.ringSelf, kv.1 < pos
  compBound : ∀ kv ∈ st.complements, kv.1 < pos
  pendFresh : ∀ kv ∈ st.evaluated, kv.2 ∉ st.complements.map Prod.fst
  pendEq : ∀ d ∈ NUMBERS, st.evaluated.lookup d =
    if 2 ∣ (occUpTo d s pos).length then none else (occUpTo d s pos).getLast?
  pairsEq : ∀ d ∈ NUMBERS,
    st.pairs.filter (fun pq => s.get? pq.1 == some d) = chunk2 (occUpTo d s pos)
  pairsChar : ∀ pq ∈ st.pairs, ∃ d, d ∈ NUMBERS ∧ s.get? pq.1 = some d ∧ s.get? pq.2 = some d
  compKeys : st.complements.map Prod.fst = st.pairs.flatMap fun pq => [pq.1, pq.2]
  compRel : ∀ pq ∈ st.pairs,
    st.complements.lookup pq.1 = st.ringSelf.lookup pq.2 ∧
    st.complements.lookup pq.2 = st.ringSelf.lookup pq.1 ∧
    (st.ringSelf.lookup pq.1).isSome ∧ (st.ringSelf.lookup pq.2).isSome

/-- C5 (code bug): the decode of `"c1ccccc1"` the claim describes never
happens in the source. `__init__` calls `formatSmiles` (line 74) before
`DLA_TO_SAR` is assigned (line 81), so construction raises AttributeError
inside `DLAtoSARconversion` (line 642) and produces no Molecule. Under the
attribute order the specification assumes (`Molecule.constructFixed`), the
decode yields exactly the claimed values: `ringCount = 1`,
`aromaticRingCount = 1`, and the cyclic and aromatic index sets are both
`[0,1,2,3,4,5]`. -/
theorem claim_C5_benzene :
    Molecule.construct ['c', '1', 'c', 'c', 'c', 'c', 'c', '1'] [] = none ∧
    (Molecule.constructFixed ['c', '1', 'c', 'c', 'c', 'c', 'c', '1'] []).map
      (fun m => (m.ringCount, m.aromaticCount, m.CYCLICINDICES, m.AROMATICINDICES))
    = some (1, 1, [0, 1, 2, 3, 4, 5], [0, 1, 2, 3, 4, 5]) := by
  constructor
  · rfl
  · have h : (Molecule.constructFixed ['c', '1', 'c', 'c', 'c', 'c', 'c', '1'] []).map
        (fun m => (m.ringCount, m.aromaticCount, m.CYCLICINDICES, m.AROMATICINDICES))
      = some (((2 : ℕ) : ℚ) / 2, ((2 : ℕ) : ℚ) / 2,
        [0, 1, 2, 3, 4, 5], [0, 1, 2, 3, 4, 5]) := rfl
    rw [h]
    norm_num

/-- C7 (code bug): the decode of `"[NH3+]CC(=O)O"` the claim describes never
happens in the source: after the hydrogen cut, construction raises
AttributeError inside `DLAtoSARconversion("NCC(=O)O")` (the `DLA_TO_SAR`
read of line 642 precedes its line-81 assignment) before any flag is set or
any bond analysed, and no Molecule is produced. Under the attribute order the
specification assumes (`Molecule.constructFixed`), the decode sets the charge
and amino-acid flags to `true`, and the terminal carbon (atom index 2 of the
normalized string `"NCC(=O)O"`) is double-bonded to one oxygen (symbol `=O`,
index 3) and single-bonded to another (symbol `O`, index 4). -/
theorem claim_C7_aminoacid :
    Molecule.construct "[NH3+]CC(=O)O".toList [] = none ∧
    (Molecule.constructFixed "[NH3+]CC(=O)O".toList []).map
      (fun m => (m.chargedMol, m.AMINOACID, m.bondData.lookup 2))
    = some (true, true, some [⟨1, ['C']⟩, ⟨3, ['=', 'O']⟩, ⟨4, ['O']⟩]) := by
  exact ⟨rfl, by decide⟩

theorem dlaToSar_eq_self : ∀ l : List Char, hasDLA l = false → dlaToSar l = l
  | [], _ => rfl
  | [_], _ => rfl
  | a :: b :: rest, h => by
    simp only [hasDLA, Bool.or_eq_false_iff, Bool.and_eq_false_iff, decide_eq_false_iff_not]
      at h
    obtain ⟨⟨h1, h2⟩, h3⟩ := h
    simp only [dlaToSar]
    rw [if_neg, if_neg]
    · exact congrArg (a :: ·) (dlaToSar_eq_self (b :: rest) h3)
    · rintro ⟨rfl, rfl⟩
      rcases h2 with h | h <;> exact h rfl
    · rintro ⟨rfl, rfl⟩
      rcases h1 with h | h <;> exact h rfl

theorem findHCut_noH (s : List Char) (hH : 'H' ∉ s) :
    ∀ fuel pos lb, s.length < pos + fuel → pos ≤ s.length →
      findHCut s fuel pos lb = some none := by
  intro fuel
  induction fuel with
  | zero => intro pos lb hlt hle; omega
  | succ f ih =>
    intro pos lb hlt hle
    rw [findHCut]
    match hga : s.get? pos with
    | none => rfl
    | some c =>
      have hc : c ∈ s := List.get?_mem hga
      have hcH : ¬(c = 'H') := fun he => hH (he ▸ hc)
      have hplen : pos < s.length := List.get?_eq_some.mp hga |>.fst
      simp only [if_neg hcH]
      exact ih (pos + 1) _ (by omega) (by omega)

/-- C8 counterexample: the two-character string `"CH"` contains no two-letter
element symbol and no bracket at all (hence no explicit-hydrogen bracket
group), yet the normalizer does not return it unchanged: the hydrogen cut
fires on the bare `'H'`, scans for a `']'` that does not exist, and raises
(result `none`), refuting the claim that every such string is returned
unchanged. -/
theorem claim_C8_counterexample :
    hasDLA ['C', 'H'] = false ∧ '[' ∉ ['C', 'H'] ∧
      formatSmiles ['C', 'H'] = none := by decide

/-- C8 (amended): normalization is idempotent on strings with no two-letter
element symbols and no `'H'` characters at all — the normalizer's hydrogen
cut triggers on any `'H'`, bracketed or not, so "no explicit-hydrogen bracket
groups" must be strengthened to "no `'H'` characters". -/
theorem claim_C8_normalizer_idempotent (s : List Char)
    (hdla : hasDLA s = false) (hH : 'H' ∉ s) : formatSmiles s = some s := by
  rw [formatSmiles, formatSmilesF,
    findHCut_noH s hH (s.length + 1) 0 none (by omega) (by omega),
    dlaToSar_eq_self s hdla]

/-- Witness for the amended C8 at the concrete already-normalized string
`"CC"`. -/
theorem claim_C8_witness :
    hasDLA ['C', 'C'] = false ∧ 'H' ∉ ['C', 'C'] ∧
      formatSmiles ['C', 'C'] = some ['C', 'C'] :=
  ⟨by decide, by decide, claim_C8_normalizer_idempotent ['C', 'C'] (by decide) (by decide)⟩

theorem take_subset_take_succ (s : List Char) (q : Nat) : s.take q ⊆ s.take (q + 1) := by
  intro c hc
  have h : (s.take (q + 1)).take q = s.take q := by
    rw [List.take_take]
    congr 1
    omega
  rw [← h] at hc
  exact List.take_subset _ _ hc

theorem drop_succ_subset (s : List Char) (q : Nat) : s.drop (q + 1) ⊆ s.drop q := by
  intro c hc
  have h : List.drop 1 (s.drop q) = s.drop (q + 1) := by
    rw [List.drop_drop]
  rw [← h] at hc
  exact List.drop_subset _ _ hc

theorem leftWalk_no_linear (s : List Char) :
    ∀ (fuel q : Nat) (ln : Char) (idx scope : Int), q < fuel → q < s.length →
      (∀ c ∈ s.take (q + 1), c ∉ LINEARSYMBOLS ∧ c ≠ '(' ∧ c ≠ ')') →
      s.get? q = some ln →
      leftWalk s [] fuel (q : Int) ln idx scope = some none := by
  intro fuel
  induction fuel with
  | zero => intro q ln idx scope hf; omega
  | succ f ih =>
    intro q ln idx scope hf hq hcl hget
    have hln : ln ∈ s.take (q + 1) := by
      refine List.mem_iff_get?.mpr ⟨q, ?_⟩
      rw [List.get?_take (by omega)]
      exact hget
    obtain ⟨hnl, hnp1, hnp2⟩ := hcl ln hln
    have hc1 : ¬(ln ∈ LINEARSYMBOLS ∧ scope ≤ 0) := fun h => hnl h.1
    have hsc1 : ¬(ln = ')' ∧ scope = -1) := fun h => hnp2 h.1
    have hidx : ¬(ln ≠ ')' ∧ ln ≠ '(' ∧ ln ∈ ATOMS) := by
      rintro ⟨-, -, hmem⟩
      exact hnl (by simp [LINEARSYMBOLS, hmem])
    rw [leftWalk]
    simp only [if_neg hc1, if_neg hsc1, if_neg hnp2, if_neg hnp1, if_neg hidx]
    rcases Nat.eq_zero_or_pos q with hq0 | hqpos
    · subst hq0
      norm_num
    · have hlt : ¬((q : Int) - 1 < 0) := by omega
      rw [if_neg hlt]
      have hpy : pyGet s ((q : Int) - 1) = s.get? (q - 1) := by
        rw [pyGet, if_pos (by omega)]
        congr 1
        omega
      have hget1 : s.get? (q - 1) = some (s.get ⟨q - 1, by omega⟩) := by
        exact List.get?_eq_get (by omega)
      rw [hpy, hget1]
      have hstep := ih (q - 1) (s.get ⟨q - 1, by omega⟩) idx scope (by omega) (by omega)
        (fun c hc => hcl c (take_subset_take_succ s q
          (by simpa [Nat.sub_add_cancel hqpos] using hc)))
        (by rw [hget1])
      have hcast : ((q : Int) - 1) = ((q - 1 : Nat) : Int) := by omega
      rw [hcast]
      exact hstep

theorem rightWalk_no_linear (s : List Char) (comp : List (Nat × Atom)) :
    ∀ (fuel q : Nat) (idx : Int),
      (∀ c ∈ s.drop q, c ∉ LINEARSYMBOLS ∧ c ≠ '(' ∧ c ≠ ')' ∧ c ∉ NUMBERS) →
      s.length ≤ q + fuel → q < s.length →
      rightWalk s comp fuel false q idx 0 [] = some [] := by
  intro fuel
  induction fuel with
  | zero => intro q idx hcl hle hq; omega
  | succ f ih =>
    intro q idx hcl hle hq
    have hget : s.get? q = some (s.get ⟨q, hq⟩) := List.get?_eq_get hq
    have hrn : s.get ⟨q, hq⟩ ∈ s.drop q := by
      refine List.mem_iff_get?.mpr ⟨0, ?_⟩
      rw [List.get?_drop]
      simpa using hget
    obtain ⟨hnl, hnp1, hnp2, hnn⟩ := hcl _ hrn
    have hc1 : ¬(s.get ⟨q, hq⟩ ∈ LINEARSYMBOLS ∧ (0 : Int) ≤ 0) := fun h => hnl h.1
    have hcp : ¬(s.get ⟨q, hq⟩ = '(' ∧ (0 : Int) = 0) := fun h => hnp1 h.1
    have hnum : ¬((0 : Int) = 0 ∧ s.get ⟨q, hq⟩ ∈ NUMBERS) := fun h => hnn h.2
    have hcpT : ¬(s.get ⟨q, hq⟩ = '(' ∧ True) := fun h => hnp1 h.1
    have hnumT : ¬(True ∧ s.get ⟨q, hq⟩ ∈ NUMBERS) := fun h => hnn h.2
    have hatom : s.get ⟨q, hq⟩ ∉ ATOMS := fun hmem => hnl
      (by simp only [LINEARSYMBOLS, List.mem_append]; exact Or.inl (Or.inl (Or.inl hmem)))
    rw [rightWalk, hget]
    simp only [if_neg hc1, if_neg hcp, if_neg hnp1, if_neg hnp2, if_neg hnum,
      if_neg hatom, if_neg hcpT, if_neg hnumT]
    rcases Nat.lt_or_ge (q + 1) s.length with hlt | hge
    · rw [if_neg (by omega : ¬(q + 1 ≥ s.length ∨ (0 : Int) < 0))]
      exact ih (q + 1) idx (fun c hc => hcl c (drop_succ_subset s q hc)) (by omega) hlt
    · rw [if_pos (by omega : q + 1 ≥ s.length ∨ (0 : Int) < 0)]

/-- C6 counterexample: in `"C1CC1"` the right-bond walk of the last atom
(position 3, index 2) runs past the end of the string without finding a
terminating linear symbol, yet its result is the non-empty list holding the
ring-closure bond collected at the depth-0 digit — not the empty result the
claim promises for every boundary-crossing walk. -/
theorem claim_C6_counterexample :
    ((ringScan ['C', '1', 'C', 'C', '1']).map fun rs =>
        getRightBonds ['C', '1', 'C', 'C', '1'] rs.complements 3 2)
      = some (some [⟨0, ['C']⟩]) ∧
    (some [Atom.mk 0 ['C']] : Option (List Atom)) ≠ some [] := by decide

/-- C6 (amended): walks that run past the string boundary are normal,
non-error outcomes, with no condition on the string's content. A left-bond
walk returns the empty result whenever it steps past the start: from the
entry step (clause 1) or from any loop state whose current character does not
terminate the walk (clause 2). A right-bond walk whose entry position is
already past the end returns the empty result (clause 3); a right-bond walk
whose loop steps past the end exits normally with exactly the bond list it
has accumulated through that step (clause 4) — non-empty when a depth-0
ring-closure bond was collected, as the counterexample shows. All four
outcomes are `some` results, distinct from the `none` of a malformed-bracket
error. -/
theorem claim_C6_boundary_walks :
    (∀ (s : List Char) (lnPos0 idx : Int), lnPos0 - 1 < 0 →
        getLeftBond s lnPos0 idx = some none) ∧
    (∀ (s eb : List Char) (fuel : Nat) (lnPos : Int) (ln : Char) (idx scope : Int),
        ¬(ln ∈ LINEARSYMBOLS ∧ scope ≤ 0) → lnPos - 1 < 0 →
        leftWalk s eb (fuel + 1) lnPos ln idx scope = some none) ∧
    (∀ (s : List Char) (comp : List (Nat × Atom)) (fuel rnPos : Nat) (idx : Int),
        s.length ≤ rnPos →
        rightWalk s comp (fuel + 1) true rnPos idx 0 [] = some []) ∧
    (∀ (s : List Char) (comp : List (Nat × Atom)) (fuel rnPos : Nat) (rn : Char)
        (idx scope : Int) (acc inner acc1 : List Atom) (scope2 : Int)
        (acc2 : List Atom),
        s.get? rnPos = some rn →
        ¬(rn ∈ LINEARSYMBOLS ∧ scope ≤ 0) →
        (if rn = '(' ∧ scope = 0 then rightWalk s comp fuel true (rnPos + 1) idx 0 []
         else some []) = some inner →
        (match inner with | [] => acc | b :: _ => acc ++ [b]) = acc1 →
        (if rn = ')' then (if rn = '(' then scope + 1 else scope) - 1
         else (if rn = '(' then scope + 1 else scope)) = scope2 →
        (if scope2 = 0 ∧ rn ∈ NUMBERS then
           (match comp.lookup rnPos with
            | none => none
            | some partner => some (acc1 ++ [partner]))
         else some acc1) = some acc2 →
        s.length ≤ rnPos + 1 →
        rightWalk s comp (fuel + 1) false rnPos idx scope acc = some acc2) := by
  refine ⟨?_, ?_, ?_, ?_⟩
  · intro s lnPos0 idx h
    simp only [getLeftBond]
    rw [if_pos h]
  · intro s eb fuel lnPos ln idx scope hnl h
    rw [leftWalk]
    simp only [if_neg hnl]
    rw [if_pos h]
  · intro s comp fuel rnPos idx h
    have hnone : s.get? rnPos = none := List.get?_eq_none.mpr h
    rw [rightWalk]
    simp only [hnone]
  · intro s comp fuel rnPos rn idx scope acc inner acc1 scope2 acc2
      hrn hnl hinner hacc1 hscope2 hacc2 hend
    rw [rightWalk]
    simp only [hrn, if_neg hnl, hinner]
    rw [hacc1, hscope2]
    simp only [hacc2]
    rw [if_pos (Or.inl hend)]

/-- Witness for the amended C6: the left walk over `"C)N"` — from the state
after crossing the sibling `')'` at positive scope — and the `getLeftBond`
entry at position 0 both step past the start and return the empty result; a
right walk entered past the end of `"C"` returns the empty result; and the
right-walk loop of the last atom of `"C1CC1"` steps past the end at the
depth-0 ring digit and returns exactly the collected ring bond, non-empty. -/
theorem claim_C6_witness :
    leftWalk ['C', ')', 'N'] [] 4 0 'C' 0 1 = some none ∧
    getLeftBond ['C', ')', 'N'] 0 0 = some none ∧
    rightWalk ['C'] [] 5 true 1 0 0 [] = some [] ∧
    rightWalk ['C', '1', 'C', 'C', '1'] [(1, ⟨2, ['C']⟩), (4, ⟨0, ['C']⟩)]
        7 false 4 2 0 [] = some [⟨0, ['C']⟩] :=
  ⟨claim_C6_boundary_walks.2.1 ['C', ')', 'N'] [] 3 0 'C' 0 1 (by decide) (by decide),
   claim_C6_boundary_walks.1 ['C', ')', 'N'] 0 0 (by decide),
   claim_C6_boundary_walks.2.2.1 ['C'] [] 4 1 0 (by decide),
   claim_C6_boundary_walks.2.2.2 ['C', '1', 'C', 'C', '1']
     [(1, ⟨2, ['C']⟩), (4, ⟨0, ['C']⟩)] 6 4 '1' 2 0 [] [] [] 0 [⟨0, ['C']⟩]
     rfl (by decide) rfl rfl rfl (by decide) (by decide)⟩

theorem pyGet_natCast (s : List Char) (n : Nat) : pyGet s (n : Int) = s.get? n := by
  rw [pyGet, if_pos (by positivity)]
  norm_num

theorem mem_linear_of_atom {c : Char} (h : c ∈ ATOMS) : c ∈ LINEARSYMBOLS := by
  simp only [LINEARSYMBOLS, List.mem_append]
  exact Or.inl (Or.inl (Or.inl h))

theorem atom_char_facts {c : Char} (h : c ∈ ATOMS) :
    c ≠ ']' ∧ c ≠ ')' ∧ c ≠ '(' ∧ c ∉ BONDS := by
  fin_cases h <;> decide

theorem pyGet_eq_get (s : List Char) (i : Int) (n : Nat) (hin : i = (n : Int)) :
    pyGet s i = s.get? n := by
  subst hin
  exact pyGet_natCast s n

theorem leftWalk_fuel_exit (s eb : List Char) (fuel : Nat) (lnPos idx scope : Int)
    (ln : Char) (hfuel : 1 ≤ fuel) (h : ln ∈ LINEARSYMBOLS ∧ scope ≤ 0) (hnb : ln ≠ ']') :
    leftWalk s eb fuel lnPos ln idx scope = some (some ⟨idx - 1, eb ++ [ln]⟩) := by
  obtain ⟨f, rfl⟩ : ∃ f, fuel = f + 1 := ⟨fuel - 1, by omega⟩
  rw [leftWalk, if_pos h, if_neg hnb]

theorem leftWalk_fuel_step (s eb : List Char) (fuel : Nat) (lnPos idx scope : Int)
    (ln ln2 : Char) (hfuel : 1 ≤ fuel) (h : ¬(ln ∈ LINEARSYMBOLS ∧ scope ≤ 0))
    (h0 : ¬(lnPos - 1 < 0)) (hg : pyGet s (lnPos - 1) = some ln2) :
    leftWalk s eb fuel lnPos ln idx scope =
      leftWalk s eb (fuel - 1) (lnPos - 1) ln2
        (if ln ≠ ')' ∧ ln ≠ '(' ∧ ln ∈ ATOMS then idx - 1 else idx)
        (if ln = ')' then (if ln = ')' ∧ scope = -1 then 0 else scope) + 1
         else if ln = '(' then (if ln = ')' ∧ scope = -1 then 0 else scope) - 1
         else (if ln = ')' ∧ scope = -1 then 0 else scope)) := by
  obtain ⟨f, rfl⟩ : ∃ f, fuel = f + 1 := ⟨fuel - 1, by omega⟩
  rw [leftWalk]
  simp only [if_neg h, if_neg h0, hg, Nat.add_sub_cancel]

/-- C3: for every fragment of the shape `X(Y)(Z)` (atom characters `cX`, `cY`,
`cZ` at positions `p`, `p+2`, `p+5`), the left-bond resolution of both `Y`
(index `iX+1`) and `Z` (index `iX+2`) yields atom `X` at `X`'s index `iX`;
in particular neither resolves the other as its left neighbor. -/
theorem claim_C3_sibling_branches (s : List Char) (p : Nat) (iX : Int)
    (cX cY cZ : Char)
    (hX : s.get? p = some cX) (h1 : s.get? (p + 1) = some '(')
    (hY : s.get? (p + 2) = some cY) (h3 : s.get? (p + 3) = some ')')
    (h4 : s.get? (p + 4) = some '(') (hZ : s.get? (p + 5) = some cZ)
    (h6 : s.get? (p + 6) = some ')')
    (mX : cX ∈ ATOMS) (mY : cY ∈ ATOMS) (mZ : cZ ∈ ATOMS) :
    getLeftBond s ((p : Int) + 2) (iX + 1) = some (some ⟨iX, [cX]⟩) ∧
    getLeftBond s ((p : Int) + 5) (iX + 2) = some (some ⟨iX, [cX]⟩) := by
  have hlen : p + 6 < s.length := (List.get?_eq_some.mp h6).1
  obtain ⟨hXb, hXp2, hXp1, hXbond⟩ := atom_char_facts mX
  obtain ⟨hYb, hYp2, hYp1, hYbond⟩ := atom_char_facts mY
  have hparen_nl : '(' ∉ LINEARSYMBOLS := by decide
  have hparen_nl2 : ')' ∉ LINEARSYMBOLS := by decide
  constructor
  · -- Y at position p+2: one step over '(' (scope drops to -1), then exit at X.
    rw [getLeftBond, if_neg (by omega : ¬((p : Int) + 2 - 1 < 0))]
    rw [pyGet_eq_get s ((p : Int) + 2 - 1) (p + 1) (by omega), h1]
    simp only [if_neg (by decide : ¬('(' ∈ BONDS))]
    have st1 := leftWalk_fuel_step s [] (s.length + 2) ((p : Int) + 2 - 1) (iX + 1) 0
      '(' cX (by omega) (fun hc => hparen_nl hc.1) (by omega)
      ((pyGet_eq_get s _ p (by omega)).trans hX)
    rw [st1]
    simp
    have st2 := leftWalk_fuel_exit s [] (s.length + 1) ((p : Int) + 2 - 1 - 1) (iX + 1)
      (-1) cX (by omega) ⟨mem_linear_of_atom mX, by norm_num⟩ hXb
    rw [st2]
    simp [Atom.mk.injEq]
  · -- Z at position p+5: steps over '(', ')', Y, '(' then exit at X.
    rw [getLeftBond, if_neg (by omega : ¬((p : Int) + 5 - 1 < 0))]
    rw [pyGet_eq_get s ((p : Int) + 5 - 1) (p + 4) (by omega), h4]
    simp only [if_neg (by decide : ¬('(' ∈ BONDS))]
    have st1 := leftWalk_fuel_step s [] (s.length + 2) ((p : Int) + 5 - 1) (iX + 2) 0
      '(' ')' (by omega) (fun hc => hparen_nl hc.1) (by omega)
      ((pyGet_eq_get s _ (p + 3) (by omega)).trans h3)
    rw [st1]
    simp
    have st2 := leftWalk_fuel_step s [] (s.length + 1) ((p : Int) + 5 - 1 - 1) (iX + 2)
      (-1) ')' cY (by omega) (fun hc => hparen_nl2 hc.1) (by omega)
      ((pyGet_eq_get s _ (p + 2) (by omega)).trans hY)
    rw [st2]
    simp
    have st3 := leftWalk_fuel_step s [] s.length ((p : Int) + 5 - 1 - 1 - 1) (iX + 2)
      1 cY '(' (by omega) (fun hc => by omega) (by omega)
      ((pyGet_eq_get s _ (p + 1) (by omega)).trans h1)
    rw [st3]
    simp
    rw [if_pos (⟨hYp2, hYp1, mY⟩ : ¬cY = ')' ∧ ¬cY = '(' ∧ cY ∈ ATOMS),
      if_neg hYp2, if_neg hYp1]
    have st4 := leftWalk_fuel_step s [] (s.length - 1) ((p : Int) + 5 - 1 - 1 - 1 - 1)
      (iX + 2 - 1) 1 '(' cX (by omega) (fun hc => hparen_nl hc.1) (by omega)
      ((pyGet_eq_get s _ p (by omega)).trans hX)
    rw [st4]
    simp
    have st5 := leftWalk_fuel_exit s [] (s.length - 1 - 1)
      ((p : Int) + 5 - 1 - 1 - 1 - 1 - 1) (iX + 2 - 1) 0 cX (by omega)
      ⟨mem_linear_of_atom mX, by norm_num⟩ hXb
    rw [st5]
    simp [Atom.mk.injEq]
    omega

/-- Witness for C3 at the concrete fragment `"C(O)(N)"`: both the oxygen and
the nitrogen resolve carbon (index 0) as their left neighbor. -/
theorem claim_C3_witness :
    getLeftBond ['C', '(', 'O', ')', '(', 'N', ')'] (((0 : Nat) : Int) + 2) (0 + 1)
        = some (some ⟨0, ['C']⟩) ∧
      getLeftBond ['C', '(', 'O', ')', '(', 'N', ')'] (((0 : Nat) : Int) + 5) (0 + 2)
        = some (some ⟨0, ['C']⟩) :=
  claim_C3_sibling_branches ['C', '(', 'O', ')', '(', 'N', ')'] 0 0 'C' 'O' 'N'
    rfl rfl rfl rfl rfl rfl rfl (by decide) (by decide) (by decide)

theorem countP_take_succ (s : List Char) (pos : Nat) (c : Char) (P : Char → Bool)
    (h : s.get? pos = some c) :
    (s.take (pos + 1)).countP P = (s.take pos).countP P + (if P c then 1 else 0) := by
  have h2 : s[pos]? = some c := by rw [← List.get?_eq_getElem?]; exact h
  rw [List.take_succ, List.countP_append, h2]
  simp [List.countP_cons]

theorem atomStep_atomData (s : List Char) (pos : Nat) (c : Char)
    (st st2 : AtomScanState) (h : atomStep s pos c st = some st2) :
    (c ∈ ATOMS ∧ st2.atomIndex = st.atomIndex + 1 ∧
      ∃ sym, st2.atomData = st.atomData ++ [(st.atomIndex + 1, ⟨st.atomIndex + 1, sym⟩)]) ∨
    (c ∉ ATOMS ∧ st2 = st) := by
  by_cases hc : c ∈ ATOMS
  · left
    refine ⟨hc, ?_⟩
    rw [atomStep, if_pos hc] at h
    rcases hsym : (if pyGet s ((pos : Int) - 1) = some '['
        then getChargedGroup s ((pos : Int) - 1) else some [c]) with - | sym
    · simp only [hsym] at h
      exact Option.noConfusion h
    · simp only [hsym] at h
      by_cases hO : c = 'O'
      · rw [if_pos hO] at h
        rcases hal : alcoholCheck s pos (st.atomIndex + 1) st.alcohols with - | al
        · simp only [hal] at h
          exact Option.noConfusion h
        · simp only [hal] at h
          have hst2 := (Option.some_inj.mp h).symm
          subst hst2
          exact ⟨rfl, sym, rfl⟩
      · rw [if_neg hO] at h
        have hst2 := (Option.some_inj.mp h).symm
        subst hst2
        exact ⟨rfl, sym, rfl⟩
  · right
    rw [atomStep, if_neg hc] at h
    exact ⟨hc, (Option.some_inj.mp h).symm⟩

theorem bondStep_data (s : List Char) (comp : List (Nat × Atom)) (pos : Nat) (c : Char)
    (st st2 : Int × List (Int × List Atom)) (h : bondStep s comp pos c st = some st2) :
    (c ∈ ATOMS ∧ st2.1 = st.1 + 1 ∧ ∃ bonds, st2.2 = st.2 ++ [(st.1 + 1, bonds)]) ∨
    (c ∉ ATOMS ∧ st2 = st) := by
  by_cases hc : c ∈ ATOMS
  · left
    refine ⟨hc, ?_⟩
    rw [bondStep, if_pos hc] at h
    dsimp only [] at h
    split at h
    · exact Option.noConfusion h
    · split at h
      · exact Option.noConfusion h
      · have hst2 := (Option.some_inj.mp h).symm
        subst hst2
        exact ⟨rfl, _, rfl⟩
  · right
    rw [bondStep, if_neg hc] at h
    exact ⟨hc, (Option.some_inj.mp h).symm⟩

theorem construct_parts (raw name : List Char) (m : Molecule)
    (h : Molecule.construct raw name = some m) :
    ∃ s0 rs inc counts ast bd,
      formatSmilesInit raw = some s0 ∧ ringScan s0 = some rs ∧ incides s0 = some inc ∧
      ringCounts s0 rs ((rs.ringSelf.length : ℚ) / 2) = some counts ∧
      atomScan (s0.map Char.toUpper) = some ast ∧
      bondScan (s0.map Char.toUpper) rs.complements = some bd ∧
      m = { SMILES := s0.map Char.toUpper, NAME := name,
            RING_OPEN_POSITIONS := rs.opens, RING_SELF := rs.ringSelf,
            RING_CLOSE_POSITIONS := rs.closes, RING_COMPLEMENTS := rs.complements,
            AROMATICINDICES := inc.arom, CYCLICINDICES := inc.cyclic,
            ringCount := (rs.ringSelf.length : ℚ) / 2,
            aromaticCount := counts.1, nonAromaticCount := counts.2,
            ALCOHOLICINDICES := ast.alcohols, atomData := ast.atomData,
            atomCount := ast.atomData.length, bondData := bd,
            chargedMol := raw.any (fun c => c ∈ CHARGES),
            AMINOACID := aminoMatch raw } := by
  rw [Molecule.construct] at h
  dsimp only [] at h
  split at h
  · exact Option.noConfusion h
  rename_i s0 hs0
  split at h
  · exact Option.noConfusion h
  rename_i rs hrs
  split at h
  · exact Option.noConfusion h
  rename_i inc hinc
  split at h
  · exact Option.noConfusion h
  rename_i counts hcnt
  split at h
  · exact Option.noConfusion h
  rename_i ast hast
  split at h
  · exact Option.noConfusion h
  rename_i bd hbd
  exact ⟨s0, rs, inc, counts, ast, bd, hs0, hrs, hinc, hcnt, hast, hbd,
    (Option.some_inj.mp h).symm⟩

theorem atomAux_keys (s : List Char) : ∀ (fuel pos : Nat) (st st2 : AtomScanState),
    atomAux s fuel pos st = some st2 →
    st.atomIndex = (((s.take pos).countP (fun c => decide (c ∈ ATOMS)) : Nat) : Int) - 1 →
    st.atomData.map Prod.fst =
      (List.range ((s.take pos).countP (fun c => decide (c ∈ ATOMS)))).map
        (fun k : Nat => (k : Int)) →
    st2.atomData.map Prod.fst =
      (List.range (s.countP (fun c => decide (c ∈ ATOMS)))).map (fun k : Nat => (k : Int)) := by
  intro fuel
  induction fuel with
  | zero =>
    intro pos st st2 h
    rw [atomAux] at h
    exact Option.noConfusion h
  | succ f ih =>
    intro pos st st2 h hidx hkeys
    rw [atomAux] at h
    rcases hga : s.get? pos with - | c
    · simp only [hga] at h
      have hpos : s.length ≤ pos := by
        rcases Nat.lt_or_ge pos s.length with hlt | hge
        · rw [List.get?_eq_get hlt] at hga
          exact Option.noConfusion hga
        · exact hge
      have htake : s.take pos = s := List.take_of_length_le hpos
      have hst : st2 = st := (Option.some_inj.mp h).symm
      subst hst
      rw [← htake]
      exact hkeys
    · simp only [hga] at h
      rcases hstep : atomStep s pos c st with - | stm
      · simp only [hstep] at h
        exact Option.noConfusion h
      · simp only [hstep] at h
        rcases atomStep_atomData s pos c st stm hstep with ⟨hc, hidx2, sym, hdata⟩ | ⟨hc, rfl⟩
        · refine ih (pos + 1) stm st2 h ?_ ?_
          · rw [hidx2, hidx,
              countP_take_succ s pos c (fun c => decide (c ∈ ATOMS)) hga,
              if_pos (decide_eq_true hc)]
            push_cast
            ring
          · rw [hdata, List.map_append, hkeys,
              countP_take_succ s pos c (fun c => decide (c ∈ ATOMS)) hga,
              if_pos (decide_eq_true hc), List.range_succ, List.map_append, hidx]
            congr 1 <;> simp
        · refine ih (pos + 1) stm st2 h ?_ ?_
          · rw [hidx, countP_take_succ s pos c (fun c => decide (c ∈ ATOMS)) hga,
              if_neg (by simpa using hc)]
            simp
          · rw [hkeys, countP_take_succ s pos c (fun c => decide (c ∈ ATOMS)) hga,
              if_neg (by simpa using hc)]
            simp

theorem bondAux_keys (s : List Char) (comp : List (Nat × Atom)) :
    ∀ (fuel pos : Nat) (st st2 : Int × List (Int × List Atom)),
    bondAux s comp fuel pos st = some st2 →
    st.1 = (((s.take pos).countP (fun c => decide (c ∈ ATOMS)) : Nat) : Int) - 1 →
    st.2.map Prod.fst =
      (List.range ((s.take pos).countP (fun c => decide (c ∈ ATOMS)))).map
        (fun k : Nat => (k : Int)) →
    st2.2.map Prod.fst =
      (List.range (s.countP (fun c => decide (c ∈ ATOMS)))).map (fun k : Nat => (k : Int)) := by
  intro fuel
  induction fuel with
  | zero =>
    intro pos st st2 h
    rw [bondAux] at h
    exact Option.noConfusion h
  | succ f ih =>
    intro pos st st2 h hidx hkeys
    rw [bondAux] at h
    rcases hga : s.get? pos with - | c
    · simp only [hga] at h
      have hpos : s.length ≤ pos := by
        rcases Nat.lt_or_ge pos s.length with hlt | hge
        · rw [List.get?_eq_get hlt] at hga
          exact Option.noConfusion hga
        · exact hge
      have htake : s.take pos = s := List.take_of_length_le hpos
      have hst : st2 = st := (Option.some_inj.mp h).symm
      subst hst
      rw [← htake]
      exact hkeys
    · simp only [hga] at h
      rcases hstep : bondStep s comp pos c st with - | stm
      · simp only [hstep] at h
        exact Option.noConfusion h
      · simp only [hstep] at h
        rcases bondStep_data s comp pos c st stm hstep with ⟨hc, hidx2, bonds, hdata⟩ | ⟨hc, rfl⟩
        · refine ih (pos + 1) stm st2 h ?_ ?_
          · rw [hidx2, hidx,
              countP_take_succ s pos c (fun c => decide (c ∈ ATOMS)) hga,
              if_pos (decide_eq_true hc)]
            push_cast
            ring
          · rw [hdata, List.map_append, hkeys,
              countP_take_succ s pos c (fun c => decide (c ∈ ATOMS)) hga,
              if_pos (decide_eq_true hc), List.range_succ, List.map_append, hidx]
            congr 1 <;> simp
        · refine ih (pos + 1) stm st2 h ?_ ?_
          · rw [hidx, countP_take_succ s pos c (fun c => decide (c ∈ ATOMS)) hga,
              if_neg (by simpa using hc)]
            simp
          · rw [hkeys, countP_take_succ s pos c (fun c => decide (c ∈ ATOMS)) hga,
              if_neg (by simpa using hc)]
            simp

/-- C2: for every valid input (every input on which construction succeeds),
`atomCount` equals the number of recognized-atom characters in the normalized
uppercase SMILES string, and the atom map's keys are exactly the dense range
`0..atomCount-1`, each occurring once, in left-to-right creation order. -/
theorem claim_C2_atom_indexing (raw name : List Char) (m : Molecule)
    (h : Molecule.construct raw name = some m) :
    m.atomCount = m.SMILES.countP (fun c => decide (c ∈ ATOMS)) ∧
    m.atomData.map Prod.fst =
      (List.range m.atomCount).map (fun k : Nat => (k : Int)) := by
  obtain ⟨s0, rs, inc, counts, ast, bd, hs0, hrs, hinc, hcnt, hast, hbd, rfl⟩ :=
    construct_parts raw name m h
  rw [atomScan] at hast
  have hkeys := atomAux_keys (s0.map Char.toUpper) ((s0.map Char.toUpper).length + 1) 0
    ⟨-1, [], []⟩ ast hast (by simp) (by simp)
  have hlen : ast.atomData.length =
      (s0.map Char.toUpper).countP (fun c => decide (c ∈ ATOMS)) := by
    have h1 : (ast.atomData.map Prod.fst).length = ast.atomData.length :=
      List.length_map _ _
    rw [hkeys] at h1
    simpa using h1.symm
  exact ⟨hlen, by rw [hkeys, hlen]⟩

/-- Witness for C2 at the empty input — the only input the source constructor
decodes (every other reaches the unbound `DLA_TO_SAR` read and raises). -/
theorem claim_C2_witness :
    ((Molecule.construct [] []).get (by decide)).atomCount =
      ((Molecule.construct [] []).get (by decide)).SMILES.countP
        (fun c => decide (c ∈ ATOMS)) ∧
    ((Molecule.construct [] []).get (by decide)).atomData.map Prod.fst =
      (List.range ((Molecule.construct [] []).get (by decide)).atomCount).map
        (fun k : Nat => (k : Int)) :=
  claim_C2_atom_indexing [] [] _ (Option.some_get _).symm

/-- C9: for every successfully decoded input, the atom map and the bond
adjacency map have exactly the same key list — the dense range
`0..atomCount-1` — so every indexed atom has a (possibly empty) adjacency
list and no adjacency list exists for a non-existent atom index. -/
theorem claim_C9_key_sets (raw name : List Char) (m : Molecule)
    (h : Molecule.construct raw name = some m) :
    m.atomData.map Prod.fst = (List.range m.atomCount).map (fun k : Nat => (k : Int)) ∧
    m.bondData.map Prod.fst = (List.range m.atomCount).map (fun k : Nat => (k : Int)) := by
  obtain ⟨s0, rs, inc, counts, ast, bd, hs0, hrs, hinc, hcnt, hast, hbd, rfl⟩ :=
    construct_parts raw name m h
  rw [atomScan] at hast
  have hkeys := atomAux_keys (s0.map Char.toUpper) ((s0.map Char.toUpper).length + 1) 0
    ⟨-1, [], []⟩ ast hast (by simp) (by simp)
  have hlen : ast.atomData.length =
      (s0.map Char.toUpper).countP (fun c => decide (c ∈ ATOMS)) := by
    have h1 : (ast.atomData.map Prod.fst).length = ast.atomData.length :=
      List.length_map _ _
    rw [hkeys] at h1
    simpa using h1.symm
  rw [bondScan] at hbd
  rcases hbaux : bondAux (s0.map Char.toUpper) rs.complements
      ((s0.map Char.toUpper).length + 1) 0 (-1, []) with - | bst
  · simp only [hbaux] at hbd
    exact Option.noConfusion hbd
  · simp only [hbaux] at hbd
    have hbkeys := bondAux_keys (s0.map Char.toUpper) rs.complements
      ((s0.map Char.toUpper).length + 1) 0 (-1, []) bst hbaux (by simp) (by simp)
    have hbd2 : bd = bst.2 := (Option.some_inj.mp hbd).symm
    constructor
    · rw [hkeys, hlen]
    · rw [hbd2, hbkeys, hlen]

/-- Witness for C9 at the empty input — the only input the source constructor
decodes: both key lists are `[]`. -/
theorem claim_C9_witness :
    ((Molecule.construct [] []).get (by decide)).atomData.map Prod.fst =
      (List.range ((Molecule.construct [] []).get (by decide)).atomCount).map
        (fun k : Nat => (k : Int)) ∧
    ((Molecule.construct [] []).get (by decide)).bondData.map Prod.fst =
      (List.range ((Molecule.construct [] []).get (by decide)).atomCount).map
        (fun k : Nat => (k : Int)) :=
  claim_C9_key_sets [] [] _ (Option.some_get _).symm

theorem mem_occUpTo (d : Char) (s : List Char) (n p : Nat) :
    p ∈ occUpTo d s n ↔ p < n ∧ s.get? p = some d := by
  simp [occUpTo, List.mem_filter, List.mem_range]

theorem occUpTo_zero (d : Char) (s : List Char) : occUpTo d s 0 = [] := rfl

theorem occUpTo_succ (d : Char) (s : List Char) (n : Nat) (c : Char)
    (h : s.get? n = some c) :
    occUpTo d s (n + 1) = occUpTo d s n ++ (if c = d then [n] else []) := by
  have h2 : s[n]? = some c := by rw [← List.get?_eq_getElem?]; exact h
  rw [occUpTo, occUpTo, List.range_succ, List.filter_append, List.filter_singleton]
  congr 1
  by_cases hcd : c = d
  · simp [h2, hcd]
  · have hbeq : (c == d) = false := by simpa using hcd
    simp [h2, hbeq, hcd]

theorem occUpTo_succ_none (d : Char) (s : List Char) (n : Nat)
    (h : s.get? n = none) :
    occUpTo d s (n + 1) = occUpTo d s n := by
  have h2 : s[n]? = none := by rw [← List.get?_eq_getElem?]; exact h
  rw [occUpTo, occUpTo, List.range_succ, List.filter_append, List.filter_singleton]
  simp [h2]

theorem occUpTo_pairwise (d : Char) (s : List Char) (n : Nat) :
    (occUpTo d s n).Pairwise (· < ·) :=
  (List.pairwise_lt_range n).filter _

theorem occUpTo_nodup (d : Char) (s : List Char) (n : Nat) :
    (occUpTo d s n).Nodup :=
  (occUpTo_pairwise d s n).imp Nat.ne_of_lt

theorem chunk2_append_even : ∀ (l : List Nat), 2 ∣ l.length → ∀ x,
    chunk2 (l ++ [x]) = chunk2 l
  | [], _, _ => rfl
  | [_], h, _ => absurd h (by simp)
  | a :: b :: t, h, x => by
    have ht : 2 ∣ t.length := by
      simp only [List.length_cons] at h
      omega
    simp only [List.cons_append, chunk2]
    rw [show t.append [x] = t ++ [x] from rfl, chunk2_append_even t ht x]

theorem chunk2_append_odd : ∀ (l : List Nat), ¬(2 ∣ l.length) → ∀ x,
    ∃ a, l.getLast? = some a ∧ chunk2 (l ++ [x]) = chunk2 l ++ [(a, x)]
  | [], h, _ => absurd (by simp) h
  | [a], _, x => ⟨a, rfl, rfl⟩
  | a :: b :: t, h, x => by
    have ht : ¬(2 ∣ t.length) := by
      simp only [List.length_cons] at h ⊢
      omega
    obtain ⟨la, hla, hch⟩ := chunk2_append_odd t ht x
    refine ⟨la, ?_, ?_⟩
    · rw [List.getLast?_cons_cons]
      cases t with
      | nil => exact Option.noConfusion hla
      | cons u us => rw [← hla, List.getLast?_cons_cons]
    · simp only [List.cons_append, chunk2]
      rw [show t.append [x] = t ++ [x] from rfl, hch]

theorem lookup_append {α β : Type} [BEq α] [LawfulBEq α] (d : α) (l1 l2 : List (α × β)) :
    (l1 ++ l2).lookup d =
      (match l1.lookup d with
       | some v => some v
       | none => l2.lookup d) := by
  induction l1 with
  | nil => simp [List.lookup]
  | cons kv rest ih =>
    rcases kv with ⟨k, v⟩
    by_cases hk : d = k
    · subst hk
      simp [List.lookup]
    · have hbeq : (d == k) = false := by simpa using hk
      simp only [List.cons_append, List.lookup, hbeq]
      exact ih

theorem lookup_none_iff {α β : Type} [BEq α] [LawfulBEq α] (d : α) (l : List (α × β)) :
    l.lookup d = none ↔ ∀ kv ∈ l, kv.1 ≠ d := by
  induction l with
  | nil => simp [List.lookup]
  | cons kv rest ih =>
    rcases kv with ⟨k, v⟩
    by_cases hk : d = k
    · subst hk
      simp [List.lookup]
    · have hbeq : (d == k) = false := by simpa using hk
      simp only [List.lookup, hbeq, ih, List.mem_cons]
      constructor
      · rintro hall kv (rfl | hkv)
        · simpa using fun he => hk he.symm
        · exact hall kv hkv
      · intro hall kv hkv
        exact hall kv (Or.inr hkv)

theorem lookup_concat_self {α β : Type} [BEq α] [LawfulBEq α] (d : α) (v : β)
    (l : List (α × β)) (h : l.lookup d = none) : (l ++ [(d, v)]).lookup d = some v := by
  rw [lookup_append, h]
  simp [List.lookup]

theorem lookup_concat_ne {α β : Type} [BEq α] [LawfulBEq α] (d k : α) (v : β)
    (l : List (α × β)) (hne : d ≠ k) : (l ++ [(k, v)]).lookup d = l.lookup d := by
  rw [lookup_append]
  rcases hl : l.lookup d with - | w
  · have hbeq : (d == k) = false := by simpa using hne
    simp [List.lookup, hbeq]
  · rfl

theorem lookup_isSome_append {α β : Type} [BEq α] [LawfulBEq α] (d : α)
    (l1 l2 : List (α × β)) (h : (l1.lookup d).isSome) :
    (l1 ++ l2).lookup d = l1.lookup d := by
  rw [lookup_append]
  rcases hl : l1.lookup d with - | w
  · rw [hl] at h
    simp at h
  · rfl

theorem filter_ne_length (c : Char) (l : List (Char × Nat))
    (hnd : (l.map Prod.fst).Nodup) (hsome : (l.lookup c).isSome) :
    (l.filter fun kv => kv.1 ≠ c).length + 1 = l.length := by
  induction l with
  | nil => simp [List.lookup] at hsome
  | cons kv rest ih =>
    rcases kv with ⟨k, v⟩
    simp only [List.map_cons, List.nodup_cons] at hnd
    by_cases hk : k = c
    · subst hk
      rw [List.filter_cons_of_neg (by simp)]
      have hrest : (rest.filter fun kv => kv.1 ≠ k) = rest := by
        rw [List.filter_eq_self]
        intro kv hkv
        simp only [ne_eq, decide_eq_true_eq]
        intro he
        exact hnd.1 (he ▸ List.mem_map_of_mem Prod.fst hkv)
      rw [hrest]
      simp
    · rw [List.filter_cons_of_pos (by simpa using hk)]
      have hsome2 : (rest.lookup c).isSome := by
        have hbeq : (c == k) = false := by simpa using fun he : c = k => hk he.symm
        simpa [List.lookup, hbeq] using hsome
      have := ih hnd.2 hsome2
      simp only [List.length_cons]
      omega

theorem lookup_filter_ne (d c : Char) (l : List (Char × Nat)) (hdc : d ≠ c) :
    (l.filter fun kv => kv.1 ≠ c).lookup d = l.lookup d := by
  induction l with
  | nil => simp
  | cons kv rest ih =>
    rcases kv with ⟨k, v⟩
    by_cases hkc : k = c
    · subst hkc
      rw [List.filter_cons_of_neg (by simp)]
      have hbeq : (d == k) = false := by simpa using hdc
      rw [ih]
      simp only [List.lookup, hbeq]
    · rw [List.filter_cons_of_pos (by simpa using hkc)]
      by_cases hdk : d = k
      · subst hdk
        simp [List.lookup]
      · have hbeq : (d == k) = false := by simpa using hdk
        simp only [List.lookup, hbeq]
        exact ih

theorem lookup_filter_self (c : Char) (l : List (Char × Nat)) :
    (l.filter fun kv => kv.1 ≠ c).lookup c = none := by
  induction l with
  | nil => simp
  | cons kv rest ih =>
    rcases kv with ⟨k, v⟩
    by_cases hkc : k = c
    · subst hkc
      rw [List.filter_cons_of_neg (by simp)]
      exact ih
    · rw [List.filter_cons_of_pos (by simpa using hkc)]
      have hbeq : (c == k) = false := by simpa using fun he : c = k => hkc he.symm
      simp only [List.lookup, hbeq]
      exact ih

theorem incWalk_spec (s : List Char) (sym : Char) :
    ∀ (fuel rnPos : Nat) (sc : List (List Int)) (scope idx : Int)
      (sc2 : List (List Int)) (closePos : Nat),
    incWalk s sym fuel rnPos sc scope idx = some (sc2, closePos) →
    s.get? closePos = some sym ∧ rnPos ≤ closePos ∧
      ∀ r, rnPos ≤ r → r < closePos → s.get? r ≠ some sym := by
  intro fuel
  induction fuel with
  | zero =>
    intro rnPos sc scope idx sc2 closePos h
    rw [incWalk] at h
    exact Option.noConfusion h
  | succ f ih =>
    intro rnPos sc scope idx sc2 closePos h
    rw [incWalk] at h
    rcases hga : s.get? rnPos with - | rn
    · simp only [hga] at h
      exact Option.noConfusion h
    · simp only [hga] at h
      by_cases hrn : rn = sym
      · rw [if_pos hrn] at h
        have hp := Option.some_inj.mp h
        injection hp with hp1 hp2
        subst hp2
        exact ⟨hrn ▸ hga, le_refl _, fun r h1 h2 => absurd h1 (by omega)⟩
      · rw [if_neg hrn] at h
        split at h
        · exact Option.noConfusion h
        · split at h
          · exact Option.noConfusion h
          · obtain ⟨h1, h2, h3⟩ := ih (rnPos + 1) _ _ _ _ _ h
            refine ⟨h1, by omega, ?_⟩
            intro r hr1 hr2
            rcases Nat.eq_or_lt_of_le hr1 with rfl | hlt
            · rw [hga]
              simpa using hrn
            · exact h3 r (by omega) hr2

theorem numbers_not_lower {c : Char} (hc : c ∈ NUMBERS) : ¬(pyLower c = true) := by
  fin_cases hc <;> decide

theorem incStep_eval (s : List Char) (pos : Nat) (c : Char) (st st2 : IncState)
    (h : incStep s pos c st = some st2) :
    (st2.evalPositions = st.evalPositions ∧ (c ∉ NUMBERS ∨ pos ∈ st.evalPositions)) ∨
    (c ∈ NUMBERS ∧ pos ∉ st.evalPositions ∧
      ∃ closePos, s.get? closePos = some c ∧ pos + 1 ≤ closePos ∧
        (∀ r, pos + 1 ≤ r → r < closePos → s.get? r ≠ some c) ∧
        st2.evalPositions = (st.evalPositions ++ [pos]) ++ [closePos]) := by
  rw [incStep] at h
  generalize (if c ∈ ATOMS then st.atomIndex + 1 else st.atomIndex) = ai at h
  split at h
  · rename_i hcond
    left
    have hst2 := (Option.some_inj.mp h).symm
    subst hst2
    exact ⟨rfl, Or.inl fun hc => numbers_not_lower hc hcond.1⟩
  · split at h
    · rename_i hcond
      right
      refine ⟨hcond.1, hcond.2, ?_⟩
      split at h
      · exact Option.noConfusion h
      · rename_i sc closePos hwalk
        obtain ⟨hsym, hge, hmin⟩ := incWalk_spec s c _ _ _ _ _ _ _ hwalk
        have hst2 := (Option.some_inj.mp h).symm
        subst hst2
        exact ⟨closePos, hsym, hge, hmin, rfl⟩
    · rename_i hcond
      left
      have hst2 := (Option.some_inj.mp h).symm
      subst hst2
      exact ⟨rfl, by tauto⟩

theorem mem_occAll (d : Char) (s : List Char) (q : Nat) :
    q ∈ occAll d s ↔ s.get? q = some d := by
  rw [occAll, mem_occUpTo]
  constructor
  · exact fun h => h.2
  · intro h
    exact ⟨(List.get?_eq_some.mp h).1, h⟩

theorem mem_take_index {l : List Nat} {p n : Nat} (h : p ∈ l.take n) :
    ∃ i, i < n ∧ l.get? i = some p := by
  obtain ⟨i, hget⟩ := List.mem_iff_get?.mp h
  have hi : i < (l.take n).length := (List.get?_eq_some.mp hget).1
  rw [List.length_take] at hi
  have hi2 : i < n := lt_of_lt_of_le hi (min_le_left _ _)
  rw [List.get?_take hi2] at hget
  exact ⟨i, hi2, hget⟩

theorem index_mem_take {l : List Nat} {p i n : Nat} (hi : i < n)
    (h : l.get? i = some p) : p ∈ l.take n := by
  refine List.mem_iff_get?.mpr ⟨i, ?_⟩
  rw [List.get?_take hi]
  exact h

theorem occAll_get?_lt (d : Char) (s : List Char) {i k x y : Nat} (hik : i < k)
    (hx : (occAll d s).get? i = some x) (hy : (occAll d s).get? k = some y) :
    x < y := by
  have hpw : (occAll d s).Pairwise (· < ·) := occUpTo_pairwise d s s.length
  rw [List.pairwise_iff_get] at hpw
  obtain ⟨hi, hxe⟩ := List.get?_eq_some.mp hx
  obtain ⟨hk, hye⟩ := List.get?_eq_some.mp hy
  have hlt := hpw ⟨i, hi⟩ ⟨k, hk⟩ (by exact hik)
  rwa [hxe, hye] at hlt

theorem incAux_even (s : List Char) (d : Char) (hd : d ∈ NUMBERS) :
    ∀ (fuel pos : Nat) (st st2 : IncState),
    incAux s fuel pos st = some st2 → IncInv d s pos st.evalPositions →
    Even ((occAll d s).length) := by
  intro fuel
  induction fuel with
  | zero =>
    intro pos st st2 h _
    rw [incAux] at h
    exact Option.noConfusion h
  | succ f ih =>
    intro pos st st2 h hinv
    rw [incAux] at h
    rcases hga : s.get? pos with - | c
    · simp only [hga] at h
      obtain ⟨j, hj, hmem, hq⟩ := hinv
      have hlen : (occAll d s).length ≤ 2 * j := by
        by_contra hlt
        push_neg at hlt
        obtain ⟨q, hqget⟩ : ∃ q, (occAll d s).get? (2 * j) = some q := by
          rcases hg : (occAll d s).get? (2 * j) with - | q
          · rw [List.get?_eq_none] at hg
            omega
          · exact ⟨q, rfl⟩
        have h1 := hq q hqget
        have h2 := (mem_occAll d s q).mp (List.get?_mem hqget)
        have h3 : q < s.length := (List.get?_eq_some.mp h2).1
        have h4 : s.length ≤ pos := by
          by_contra hc
          push_neg at hc
          rw [List.get?_eq_get hc] at hga
          exact Option.noConfusion hga
        omega
      exact ⟨j, by omega⟩
    · simp only [hga] at h
      rcases hstep : incStep s pos c st with - | stm
      · simp only [hstep] at h
        exact Option.noConfusion h
      · simp only [hstep] at h
        refine ih (pos + 1) stm st2 h ?_
        obtain ⟨j, hj, hmem, hq⟩ := hinv
        rcases incStep_eval s pos c st stm hstep with
          ⟨heval, hcnum⟩ | ⟨hcnum, hposn, closePos, hcsym, hcge, hcmin, heval⟩
        · -- evaluated positions unchanged
          refine ⟨j, hj, ?_, ?_⟩
          · intro p hp
            rw [heval]
            exact hmem p hp
          · intro q hqget
            have h1 := hq q hqget
            rcases Nat.eq_or_lt_of_le h1 with heq | hlt
            · exfalso
              have h2 := (mem_occAll d s q).mp (List.get?_mem hqget)
              have hcd : c = d := by
                rw [← heq, hga] at h2
                exact Option.some_inj.mp h2
              subst hcd
              rcases hcnum with hno | hin
              · exact hno hd
              · have hpos_occ : pos ∈ occAll c s := (mem_occAll c s pos).mpr hga
                have h3 : pos ∈ (occAll c s).take (2 * j) := (hmem pos hpos_occ).mp hin
                obtain ⟨i, hi2j, higet⟩ := mem_take_index h3
                have hpq : pos < q := occAll_get?_lt c s hi2j higet hqget
                omega
            · omega
        · by_cases hcd : c = d
          · subst hcd
            have hpos_occ : pos ∈ occAll c s := (mem_occAll c s pos).mpr hga
            have hpos_not_take : pos ∉ (occAll c s).take (2 * j) := by
              intro hin
              exact hposn ((hmem pos hpos_occ).mpr hin)
            obtain ⟨ifin, hif⟩ := List.mem_iff_get?.mp hpos_occ
            have hige : 2 * j ≤ ifin := by
              by_contra hc2
              push_neg at hc2
              exact hpos_not_take (index_mem_take hc2 hif)
            have hi_len : ifin < (occAll c s).length := (List.get?_eq_some.mp hif).1
            obtain ⟨q0, hq0⟩ : ∃ q0, (occAll c s).get? (2 * j) = some q0 := by
              rcases hg : (occAll c s).get? (2 * j) with - | q0
              · rw [List.get?_eq_none] at hg
                omega
              · exact ⟨q0, rfl⟩
            have hq0pos : q0 = pos := by
              rcases Nat.eq_or_lt_of_le hige with heq | hlt
              · rw [← heq] at hif
                exact Option.some_inj.mp (hq0.symm.trans hif)
              · have hlt2 : q0 < pos := occAll_get?_lt c s hlt hq0 hif
                have hge2 : pos ≤ q0 := hq q0 hq0
                omega
            rw [hq0pos] at hq0
            have hclose_occ : closePos ∈ occAll c s := (mem_occAll c s closePos).mpr hcsym
            obtain ⟨kfin, hkf⟩ := List.mem_iff_get?.mp hclose_occ
            have hk_gt : 2 * j < kfin := by
              by_contra hc2
              push_neg at hc2
              rcases Nat.eq_or_lt_of_le hc2 with heq | hlt
              · rw [heq] at hkf
                have he2 : closePos = pos := Option.some_inj.mp (hkf.symm.trans hq0)
                omega
              · have hlt2 : closePos < pos := occAll_get?_lt c s hlt hkf hq0
                omega
            have hk_eq : kfin = 2 * j + 1 := by
              by_contra hc2
              have hk_gt2 : 2 * j + 1 < kfin := by omega
              have hk_len : kfin < (occAll c s).length := (List.get?_eq_some.mp hkf).1
              obtain ⟨m, hm⟩ : ∃ m, (occAll c s).get? (2 * j + 1) = some m := by
                rcases hg : (occAll c s).get? (2 * j + 1) with - | m
                · rw [List.get?_eq_none] at hg
                  omega
                · exact ⟨m, rfl⟩
              have hm1 : pos < m := occAll_get?_lt c s (by omega) hq0 hm
              have hm2 : m < closePos := occAll_get?_lt c s hk_gt2 hm hkf
              have hmd := (mem_occAll c s m).mp (List.get?_mem hm)
              exact hcmin m (by omega) hm2 hmd
            rw [hk_eq] at hkf
            have hkf2 : (occAll c s)[2 * j + 1]? = some closePos := by
              rw [← List.get?_eq_getElem?]
              exact hkf
            have hq02 : (occAll c s)[2 * j]? = some pos := by
              rw [← List.get?_eq_getElem?]
              exact hq0
            refine ⟨j + 1, ?_, ?_, ?_⟩
            · have hlen2 := (List.get?_eq_some.mp hkf).1
              omega
            · intro p hp
              rw [heval]
              have htk : (occAll c s).take (2 * (j + 1)) =
                  ((occAll c s).take (2 * j) ++ [pos]) ++ [closePos] := by
                have e1 : 2 * (j + 1) = (2 * j + 1) + 1 := by omega
                rw [e1, List.take_succ, hkf2, List.take_succ, hq02]
                simp
              rw [htk]
              simp only [List.mem_append, List.mem_singleton]
              have hold := hmem p hp
              tauto
            · intro q hqget
              have e1 : 2 * (j + 1) = (2 * j + 1) + 1 := by omega
              rw [e1] at hqget
              have hgt : closePos < q := occAll_get?_lt c s (by omega) hkf hqget
              omega
          · refine ⟨j, hj, ?_, ?_⟩
            · intro p hp
              rw [heval]
              simp only [List.mem_append, List.mem_singleton]
              have hpd := (mem_occAll d s p).mp hp
              have hnp : p ≠ pos := by
                intro he
                rw [he, hga] at hpd
                exact hcd (Option.some_inj.mp hpd)
              have hnc : p ≠ closePos := by
                intro he
                rw [he, hcsym] at hpd
                exact hcd (Option.some_inj.mp hpd)
              have hold := hmem p hp
              tauto
            · intro q hqget
              have h1 := hq q hqget
              have h2 := (mem_occAll d s q).mp (List.get?_mem hqget)
              have hnq : q ≠ pos := by
                intro he
                rw [he, hga] at h2
                exact hcd (Option.some_inj.mp h2)
              omega

theorem incides_even (s : List Char) (inc : IncState) (h : incides s = some inc) :
    ∀ d ∈ NUMBERS, Even ((occAll d s).length) := by
  intro d hd
  rw [incides] at h
  refine incAux_even s d hd (s.length + 1) 0 ⟨-1, [], [], []⟩ inc h ?_
  exact ⟨0, by simp, by simp, fun q _ => Nat.zero_le q⟩

theorem dlaToSarInit_some (s r : List Char) (h : dlaToSarInit s = some r) :
    s = [] ∧ r = [] := by
  cases s with
  | nil => exact ⟨rfl, (Option.some_inj.mp h).symm⟩
  | cons c rest => exact Option.noConfusion h

/-- The constructor-time normalization succeeds only on the empty string:
every non-empty input reaches an unbound `DLA_TO_SAR` read (or an earlier
error of the hydrogen cut) and raises. -/
theorem formatSmilesInitF_some : ∀ (fuel : Nat) (s r : List Char),
    formatSmilesInitF fuel s = some r → s = [] ∧ r = [] := by
  intro fuel
  induction fuel with
  | zero =>
    intro s r h
    rw [formatSmilesInitF] at h
    exact Option.noConfusion h
  | succ f ih =>
    intro s r h
    rw [formatSmilesInitF] at h
    split at h
    · exact Option.noConfusion h
    · exact dlaToSarInit_some s r h
    · split at h
      · exact Option.noConfusion h
      · split at h
        · exact dlaToSarInit_some s r h
        · rename_i hne
          obtain ⟨h1, -⟩ := dlaToSarInit_some _ r h
          exact absurd h1 hne

theorem formatSmilesInit_some (s r : List Char) (h : formatSmilesInit s = some r) :
    s = [] ∧ r = [] :=
  formatSmilesInitF_some (s.length + 1) s r h

/-- The source constructor produces no Molecule for any non-empty input: the
line-74 normalization call raises before any later stage runs. -/
theorem construct_none_of_ne_nil (raw name : List Char) (hraw : raw ≠ []) :
    Molecule.construct raw name = none := by
  rw [Molecule.construct]
  rcases hf : formatSmilesInit raw with - | s0
  · rfl
  · exact absurd (formatSmilesInit_some raw s0 hf).1 hraw

/-- C10 (corrected): for every input containing a ring-closure digit whose
value never reappears later (an unmatched ring opening), Molecule
construction does raise an exception and produces no Molecule — but the
exception is the constructor-order AttributeError of normalization (the
`DLA_TO_SAR` read at line 642 runs during the line-74 `formatSmiles` call,
before the line-81 assignment), which fires on every non-empty input, so the
cyclic-index walk of `_INCIDES` never executes. The walk-level mechanism is
real at component level: `_INCIDES` itself, run on the string with the
unmatched digit, raises — its cyclic-index walk for that digit reads past
the end of the string. -/
theorem claim_C10_unmatched_ring (raw name : List Char) (d : Char) (p : Nat)
    (hd : d ∈ NUMBERS) (hp : raw.get? p = some d)
    (hopen : Even ((occUpTo d raw p).length))
    (hlater : ∀ q, q < raw.length → p < q → raw.get? q ≠ some d) :
    Molecule.construct raw name = none ∧ incides raw = none := by
  have hraw : raw ≠ [] := by
    intro he
    rw [he] at hp
    exact Option.noConfusion hp
  refine ⟨construct_none_of_ne_nil raw name hraw, ?_⟩
  have hodd : ¬ Even ((occAll d raw).length) := by
    have hstep : occUpTo d raw (p + 1) = occUpTo d raw p ++ [p] := by
      rw [occUpTo_succ d raw p d hp]
      simp
    have hrest : ∀ n, p + 1 ≤ n → occUpTo d raw n = occUpTo d raw (p + 1) := by
      intro n
      induction n with
      | zero => intro hn; omega
      | succ k ihk =>
        intro hn
        rcases Nat.eq_or_lt_of_le hn with heq | hlt
        · rw [← heq]
        · have hk : p + 1 ≤ k := by omega
          have ihk2 := ihk hk
          rcases hg : raw.get? k with - | ck
          · rw [occUpTo_succ_none d raw k hg, ihk2]
          · rw [occUpTo_succ d raw k ck hg]
            have hck : ¬(ck = d) := by
              intro he
              exact hlater k (List.get?_eq_some.mp hg).1 (by omega) (he ▸ hg)
            rw [if_neg hck]
            simp [ihk2]
    have hq : p < raw.length := (List.get?_eq_some.mp hp).1
    have hall : occAll d raw = occUpTo d raw p ++ [p] := by
      rw [occAll, hrest raw.length (by omega), hstep]
    rw [hall, List.length_append]
    simp [Nat.even_add_one, hopen]
  rcases hinc : incides raw with - | inc
  · rfl
  · exact absurd (incides_even raw inc hinc d hd) hodd

/-- C10 counterexample to the frozen mechanism at the input `"C1CC"` (an
unmatched ring opening): construction indeed produces no Molecule, but the
failure is already the constructor-order AttributeError of normalization —
`formatSmilesInit` returns no string — so the `_INCIDES` cyclic-index walk
the claim blames never executes. -/
theorem claim_C10_counterexample :
    formatSmilesInit ['C', '1', 'C', 'C'] = none ∧
    Molecule.construct ['C', '1', 'C', 'C'] [] = none :=
  ⟨rfl, rfl⟩

/-- Witness for the corrected C10 at the concrete input `"C1CC"`: the digit
`'1'` at position 1 opens a ring that never closes; no Molecule is produced,
and `_INCIDES` on the string itself raises. -/
theorem claim_C10_witness :
    Molecule.construct ['C', '1', 'C', 'C'] [] = none ∧
    incides ['C', '1', 'C', 'C'] = none :=
  claim_C10_unmatched_ring ['C', '1', 'C', 'C'] [] '1' 1
    (by decide) rfl (by decide) (by decide)

/-- Case analysis of one `_RING` iteration: a non-digit character leaves every
ring container unchanged; a digit either opens (no pending entry: record the
position in `evaluated`, `ringSelf` and `opens`) or closes (pending entry
found: pair with the stored opening position, write both directions into
`complements`, record the close, clear the pending entry). -/
theorem ringStep_cases (s : List Char) (pos : Nat) (c : Char) (st st2 : RingState)
    (h : ringStep s pos c st = some st2) :
    (c ∉ NUMBERS ∧ st2.evaluated = st.evaluated ∧ st2.ringSelf = st.ringSelf ∧
      st2.complements = st.complements ∧ st2.opens = st.opens ∧
      st2.closes = st.closes ∧ st2.pairs = st.pairs) ∨
    (c ∈ NUMBERS ∧ st.evaluated.lookup c = none ∧
      ∃ atom : Atom,
        st2.evaluated = st.evaluated ++ [(c, pos)] ∧
        st2.ringSelf = st.ringSelf ++ [(pos, atom)] ∧
        st2.complements = st.complements ∧
        st2.opens = st.opens ++ [pos] ∧
        st2.closes = st.closes ∧
        st2.pairs = st.pairs) ∨
    (c ∈ NUMBERS ∧
      ∃ (initPos : Nat) (atom openAtom : Atom),
        st.evaluated.lookup c = some initPos ∧
        (st.ringSelf ++ [(pos, atom)]).lookup initPos = some openAtom ∧
        st2.evaluated = st.evaluated.filter (fun kv => kv.1 ≠ c) ∧
        st2.ringSelf = st.ringSelf ++ [(pos, atom)] ∧
        st2.complements = st.complements ++ [(initPos, atom), (pos, openAtom)] ∧
        st2.opens = st.opens ∧
        st2.closes = st.closes ++ [pos] ∧
        st2.pairs = st.pairs ++ [(initPos, pos)]) := by
  by_cases hnum : c ∈ NUMBERS
  · simp only [ringStep, if_pos hnum] at h
    split at h
    · exact Option.noConfusion h
    · rename_i sym hsym
      split at h
      · rename_i initPos hlook
        split at h
        · exact Option.noConfusion h
        · rename_i openAtom hopen
          rw [Option.some.injEq] at h
          subst h
          right; right
          exact ⟨hnum, initPos, _, openAtom, hlook, hopen, rfl, rfl, rfl, rfl, rfl, rfl⟩
      · rename_i hlook
        rw [Option.some.injEq] at h
        subst h
        right; left
        exact ⟨hnum, hlook, _, rfl, rfl, rfl, rfl, rfl, rfl⟩
  · simp only [ringStep, if_neg hnum] at h
    rw [Option.some.injEq] at h
    subst h
    left
    exact ⟨hnum, rfl, rfl, rfl, rfl, rfl, rfl⟩

theorem occUpTo_ge_len (d : Char) (s : List Char) (n : Nat) (h : s.length ≤ n) :
    occUpTo d s n = occAll d s := by
  induction n with
  | zero =>
    have hs : s.length = 0 := Nat.le_zero.mp h
    rw [occAll, hs]
  | succ m ih =>
    by_cases hm : s.length ≤ m
    · have hget : s.get? m = none := by
        rw [List.get?_eq_getElem?, List.getElem?_eq_none hm]
      rw [occUpTo_succ_none d s m hget, ih hm]
    · have hm2 : s.length = m + 1 := by omega
      rw [occAll, hm2]

theorem lookup_mem {α β : Type} [BEq α] [LawfulBEq α] {l : List (α × β)} {d : α} {v : β}
    (h : l.lookup d = some v) : (d, v) ∈ l := by
  induction l with
  | nil => exact Option.noConfusion h
  | cons kv rest ih =>
    rcases kv with ⟨k, w⟩
    by_cases hk : d = k
    · subst hk
      simp only [List.lookup, beq_self_eq_true] at h
      rw [Option.some_inj.mp h]
      exact List.mem_cons_self _ _
    · have hbeq : (d == k) = false := by simpa using hk
      simp only [List.lookup, hbeq] at h
      exact List.mem_cons_of_mem _ (ih h)

theorem lookup_concat2_left {α β : Type} [BEq α] [LawfulBEq α] (a b : α) (x y : β)
    (l : List (α × β)) (hla : l.lookup a = none) (hab : a ≠ b) :
    (l ++ [(a, x), (b, y)]).lookup a = some x := by
  have he : l ++ [(a, x), (b, y)] = (l ++ [(a, x)]) ++ [(b, y)] := by simp
  rw [he, lookup_concat_ne a b y _ hab, lookup_concat_self a x l hla]

theorem lookup_concat2_right {α β : Type} [BEq α] [LawfulBEq α] (a b : α) (x y : β)
    (l : List (α × β)) (hlb : l.lookup b = none) (hba : b ≠ a) :
    (l ++ [(a, x), (b, y)]).lookup b = some y := by
  have he : l ++ [(a, x), (b, y)] = (l ++ [(a, x)]) ++ [(b, y)] := by simp
  rw [he]
  refine lookup_concat_self b y _ ?_
  rw [lookup_concat_ne b a x l hba]
  exact hlb

theorem occUpTo_succ_self (d : Char) (s : List Char) (pos : Nat)
    (h : s.get? pos = some d) :
    occUpTo d s (pos + 1) = occUpTo d s pos ++ [pos] := by
  rw [occUpTo_succ d s pos d h]
  simp

theorem occUpTo_succ_ne (d c : Char) (s : List Char) (pos : Nat)
    (h : s.get? pos = some c) (hcd : c ≠ d) :
    occUpTo d s (pos + 1) = occUpTo d s pos := by
  rw [occUpTo_succ d s pos c h, if_neg hcd, List.append_nil]

/-- A non-digit `_RING` iteration preserves the loop invariant. -/
theorem RingI_skip (s : List Char) (pos : Nat) (c : Char) (st st2 : RingState)
    (hget : s.get? pos = some c) (hnum : c ∉ NUMBERS)
    (he : st2.evaluated = st.evaluated) (hr : st2.ringSelf = st.ringSelf)
    (hc : st2.complements = st.complements) (ho : st2.opens = st.opens)
    (hcl : st2.closes = st.closes) (hp : st2.pairs = st.pairs)
    (inv : RingI s pos st) : RingI s (pos + 1) st2 := by
  have hocc : ∀ d ∈ NUMBERS, occUpTo d s (pos + 1) = occUpTo d s pos := by
    intro d hd
    refine occUpTo_succ_ne d c s pos hget ?_
    intro hcd
    exact hnum (hcd ▸ hd)
  constructor
  · rw [hr, ho, hcl]; exact inv.selfLen
  · rw [ho, hcl, he]; exact inv.openLen
  · rw [he]; exact inv.keysNum
  · rw [he]; exact inv.keysNodup
  · rw [he]; exact inv.pendChar
  · rw [he]; intro kv hkv; exact Nat.lt_succ_of_lt (inv.pendBound kv hkv)
  · rw [hr]; intro kv hkv; exact Nat.lt_succ_of_lt (inv.selfBound kv hkv)
  · rw [hc]; intro kv hkv; exact Nat.lt_succ_of_lt (inv.compBound kv hkv)
  · rw [he, hc]; exact inv.pendFresh
  · intro d hd; rw [he, hocc d hd]; exact inv.pendEq d hd
  · intro d hd; rw [hp, hocc d hd]; exact inv.pairsEq d hd
  · rw [hp]; exact inv.pairsChar
  · rw [hc, hp]; exact inv.compKeys
  · rw [hp, hc, hr]; exact inv.compRel

/-- A ring-opening `_RING` iteration (digit with no pending entry) preserves
the loop invariant. -/
theorem RingI_open (s : List Char) (pos : Nat) (c : Char) (atom : Atom)
    (st st2 : RingState)
    (hget : s.get? pos = some c) (hnum : c ∈ NUMBERS)
    (hlook : st.evaluated.lookup c = none)
    (he : st2.evaluated = st.evaluated ++ [(c, pos)])
    (hr : st2.ringSelf = st.ringSelf ++ [(pos, atom)])
    (hc : st2.complements = st.complements)
    (ho : st2.opens = st.opens ++ [pos])
    (hcl : st2.closes = st.closes) (hp : st2.pairs = st.pairs)
    (inv : RingI s pos st) : RingI s (pos + 1) st2 := by
  have heven : 2 ∣ (occUpTo c s pos).length := by
    by_contra hev
    have hpe := inv.pendEq c hnum
    rw [hlook, if_neg hev] at hpe
    have hne : occUpTo c s pos ≠ [] := by
      intro h0
      rw [h0] at hev
      exact hev (by simp)
    have hs2 : (occUpTo c s pos).getLast?.isSome := List.getLast?_isSome.mpr hne
    rw [← hpe] at hs2
    simp at hs2
  have hoccc : occUpTo c s (pos + 1) = occUpTo c s pos ++ [pos] :=
    occUpTo_succ_self c s pos hget
  have hoccne : ∀ d ∈ NUMBERS, d ≠ c → occUpTo d s (pos + 1) = occUpTo d s pos := by
    intro d _ hdc
    exact occUpTo_succ_ne d c s pos hget (fun hcd => hdc hcd.symm)
  have hcnotkey : c ∉ st.evaluated.map Prod.fst := by
    intro hmem
    obtain ⟨kv, hkv, hfst⟩ := List.mem_map.mp hmem
    exact (lookup_none_iff c st.evaluated).mp hlook kv hkv hfst
  constructor
  · rw [hr, ho, hcl, List.length_append, List.length_append]
    have := inv.selfLen
    simp only [List.length_cons, List.length_nil]
    omega
  · rw [ho, hcl, he, List.length_append, List.length_append]
    have := inv.openLen
    simp only [List.length_cons, List.length_nil]
    omega
  · rw [he]
    intro kv hkv
    rcases List.mem_append.mp hkv with hl | hr2
    · exact inv.keysNum kv hl
    · rw [List.mem_singleton.mp hr2]
      exact hnum
  · rw [he, List.map_append]
    rw [List.nodup_append]
    refine ⟨inv.keysNodup, by simp, ?_⟩
    intro a ha hb
    simp only [List.map_cons, List.map_nil, List.mem_cons, List.not_mem_nil, or_false] at hb
    rw [hb] at ha
    exact hcnotkey ha
  · rw [he]
    intro kv hkv
    rcases List.mem_append.mp hkv with hl | hr2
    · exact inv.pendChar kv hl
    · rw [List.mem_singleton.mp hr2]
      exact hget
  · rw [he]
    intro kv hkv
    rcases List.mem_append.mp hkv with hl | hr2
    · exact Nat.lt_succ_of_lt (inv.pendBound kv hl)
    · rw [List.mem_singleton.mp hr2]
      exact Nat.lt_succ_self pos
  · rw [hr]
    intro kv hkv
    rcases List.mem_append.mp hkv with hl | hr2
    · exact Nat.lt_succ_of_lt (inv.selfBound kv hl)
    · rw [List.mem_singleton.mp hr2]
      exact Nat.lt_succ_self pos
  · rw [hc]
    intro kv hkv
    exact Nat.lt_succ_of_lt (inv.compBound kv hkv)
  · rw [he, hc]
    intro kv hkv
    rcases List.mem_append.mp hkv with hl | hr2
    · exact inv.pendFresh kv hl
    · rw [List.mem_singleton.mp hr2]
      intro hmem
      obtain ⟨kv2, hkv2, hfst⟩ := List.mem_map.mp hmem
      have := inv.compBound kv2 hkv2
      omega
  · intro d hd
    by_cases hdc : d = c
    · subst hdc
      rw [he, lookup_concat_self d pos st.evaluated hlook, hoccc]
      have hodd : ¬ 2 ∣ (occUpTo d s pos ++ [pos]).length := by
        rw [List.length_append]
        simp only [List.length_cons, List.length_nil]
        omega
      rw [if_neg hodd, List.getLast?_concat]
    · rw [he, lookup_concat_ne d c pos st.evaluated hdc, hoccne d hd hdc]
      exact inv.pendEq d hd
  · intro d hd
    by_cases hdc : d = c
    · subst hdc
      rw [hp, hoccc, chunk2_append_even _ heven]
      exact inv.pairsEq d hd
    · rw [hp, hoccne d hd hdc]
      exact inv.pairsEq d hd
  · rw [hp]; exact inv.pairsChar
  · rw [hc, hp]; exact inv.compKeys
  · rw [hp, hc, hr]
    intro pq hpq
    obtain ⟨h1, h2, h3, h4⟩ := inv.compRel pq hpq
    rw [lookup_isSome_append pq.1 st.ringSelf [(pos, atom)] h3,
        lookup_isSome_append pq.2 st.ringSelf [(pos, atom)] h4]
    exact ⟨h1, h2, h3, h4⟩

/-- A ring-closing `_RING` iteration (digit with a pending entry) preserves
the loop invariant. -/
theorem RingI_close (s : List Char) (pos : Nat) (c : Char) (initPos : Nat)
    (atom openAtom : Atom) (st st2 : RingState)
    (hget : s.get? pos = some c) (hnum : c ∈ NUMBERS)
    (hlook : st.evaluated.lookup c = some initPos)
    (hopen : (st.ringSelf ++ [(pos, atom)]).lookup initPos = some openAtom)
    (he : st2.evaluated = st.evaluated.filter (fun kv => kv.1 ≠ c))
    (hr : st2.ringSelf = st.ringSelf ++ [(pos, atom)])
    (hcm : st2.complements = st.complements ++ [(initPos, atom), (pos, openAtom)])
    (ho : st2.opens = st.opens)
    (hcl : st2.closes = st.closes ++ [pos])
    (hp : st2.pairs = st.pairs ++ [(initPos, pos)])
    (inv : RingI s pos st) : RingI s (pos + 1) st2 := by
  have hmemE : (c, initPos) ∈ st.evaluated := lookup_mem hlook
  have hInitChar : s.get? initPos = some c := inv.pendChar _ hmemE
  have hInitLt : initPos < pos := inv.pendBound _ hmemE
  have hInitNC : initPos ∉ st.complements.map Prod.fst := inv.pendFresh _ hmemE
  have hodd : ¬ 2 ∣ (occUpTo c s pos).length := by
    intro hev
    have hpe := inv.pendEq c hnum
    rw [hlook, if_pos hev] at hpe
    exact Option.noConfusion hpe
  have hlast : (occUpTo c s pos).getLast? = some initPos := by
    have hpe := inv.pendEq c hnum
    rw [hlook, if_neg hodd] at hpe
    exact hpe.symm
  have hCompInit : st.complements.lookup initPos = none := by
    refine (lookup_none_iff initPos st.complements).mpr ?_
    intro kv hkv hfst
    exact hInitNC (hfst ▸ List.mem_map_of_mem Prod.fst hkv)
  have hCompPos : st.complements.lookup pos = none := by
    refine (lookup_none_iff pos st.complements).mpr ?_
    intro kv hkv hfst
    have := inv.compBound kv hkv
    omega
  have hSelfPos : st.ringSelf.lookup pos = none := by
    refine (lookup_none_iff pos st.ringSelf).mpr ?_
    intro kv hkv hfst
    have := inv.selfBound kv hkv
    omega
  have hoccc : occUpTo c s (pos + 1) = occUpTo c s pos ++ [pos] :=
    occUpTo_succ_self c s pos hget
  have hoccne : ∀ d ∈ NUMBERS, d ≠ c → occUpTo d s (pos + 1) = occUpTo d s pos := by
    intro d _ hdc
    exact occUpTo_succ_ne d c s pos hget (fun hcd => hdc hcd.symm)
  have hflen : (st.evaluated.filter fun kv => kv.1 ≠ c).length + 1 = st.evaluated.length :=
    filter_ne_length c st.evaluated inv.keysNodup (by rw [hlook]; rfl)
  constructor
  · rw [hr, ho, hcl, List.length_append, List.length_append]
    have := inv.selfLen
    simp only [List.length_cons, List.length_nil]
    omega
  · rw [ho, hcl, he, List.length_append]
    have := inv.openLen
    simp only [List.length_cons, List.length_nil]
    omega
  · rw [he]
    intro kv hkv
    exact inv.keysNum kv (List.mem_of_mem_filter hkv)
  · rw [he]
    exact List.Nodup.sublist ((List.filter_sublist st.evaluated).map Prod.fst) inv.keysNodup
  · rw [he]
    intro kv hkv
    exact inv.pendChar kv (List.mem_of_mem_filter hkv)
  · rw [he]
    intro kv hkv
    exact Nat.lt_succ_of_lt (inv.pendBound kv (List.mem_of_mem_filter hkv))
  · rw [hr]
    intro kv hkv
    rcases List.mem_append.mp hkv with hl | hr2
    · exact Nat.lt_succ_of_lt (inv.selfBound kv hl)
    · rw [List.mem_singleton.mp hr2]
      exact Nat.lt_succ_self pos
  · rw [hcm]
    intro kv hkv
    rcases List.mem_append.mp hkv with hl | hr2
    · exact Nat.lt_succ_of_lt (inv.compBound kv hl)
    · rcases List.mem_cons.mp hr2 with h1 | h2
      · rw [h1]
        omega
      · rw [List.mem_singleton.mp h2]
        exact Nat.lt_succ_self pos
  · rw [he, hcm]
    intro kv hkv
    have hkvm := List.mem_of_mem_filter hkv
    have hkne : kv.1 ≠ c := by
      have := (List.mem_filter.mp hkv).2
      simpa using this
    have hkchar := inv.pendChar kv hkvm
    intro hmem
    have hmap : (st.complements ++ [(initPos, atom), (pos, openAtom)]).map Prod.fst =
        st.complements.map Prod.fst ++ [initPos, pos] := by
      simp
    rw [hmap] at hmem
    rcases List.mem_append.mp hmem with hml | hmr
    · exact inv.pendFresh kv hkvm hml
    · rcases List.mem_cons.mp hmr with h1 | h2
      · rw [h1] at hkchar
        rw [hInitChar] at hkchar
        exact hkne (Option.some_inj.mp hkchar).symm
      · rw [List.mem_singleton.mp h2] at hkchar
        rw [hget] at hkchar
        exact hkne (Option.some_inj.mp hkchar).symm
  · intro d hd
    by_cases hdc : d = c
    · subst hdc
      rw [he, lookup_filter_self, hoccc, List.length_append]
      have hev2 : 2 ∣ (occUpTo d s pos).length + [pos].length := by
        simp only [List.length_cons, List.length_nil]
        omega
      rw [if_pos hev2]
    · rw [he, lookup_filter_ne d c st.evaluated hdc, hoccne d hd hdc]
      exact inv.pendEq d hd
  · intro d hd
    by_cases hdc : d = c
    · subst hdc
      rw [hp, List.filter_append, hoccc]
      obtain ⟨a, hga, hch⟩ := chunk2_append_odd (occUpTo d s pos) hodd pos
      have ha : a = initPos := by
        rw [hga] at hlast
        exact Option.some_inj.mp hlast
      rw [hch, ← inv.pairsEq d hd, ha]
      congr 1
      have hpred2 : s[initPos]? = some d := by
        rw [← List.get?_eq_getElem?]
        exact hInitChar
      simp [hpred2]
    · rw [hp, List.filter_append, hoccne d hd hdc, ← inv.pairsEq d hd]
      have hpred2 : s[initPos]? = some c := by
        rw [← List.get?_eq_getElem?]
        exact hInitChar
      have hcd : c ≠ d := fun h => hdc h.symm
      simp [hpred2, hcd]
  · rw [hp]
    intro pq hpq
    rcases List.mem_append.mp hpq with hl | hr2
    · exact inv.pairsChar pq hl
    · rw [List.mem_singleton.mp hr2]
      exact ⟨c, hnum, hInitChar, hget⟩
  · rw [hcm, hp]
    have hmap : (st.complements ++ [(initPos, atom), (pos, openAtom)]).map Prod.fst =
        st.complements.map Prod.fst ++ [initPos, pos] := by
      simp
    rw [hmap, inv.compKeys, List.flatMap_append]
    simp
  · rw [hp, hcm, hr]
    intro pq hpq
    rcases List.mem_append.mp hpq with hl | hr2
    · obtain ⟨h1, h2, h3, h4⟩ := inv.compRel pq hl
      have hc1 : (st.complements.lookup pq.1).isSome := by
        rw [h1]
        exact h4
      have hc2 : (st.complements.lookup pq.2).isSome := by
        rw [h2]
        exact h3
      rw [lookup_isSome_append pq.1 st.complements [(initPos, atom), (pos, openAtom)] hc1,
          lookup_isSome_append pq.2 st.complements [(initPos, atom), (pos, openAtom)] hc2,
          lookup_isSome_append pq.1 st.ringSelf [(pos, atom)] h3,
          lookup_isSome_append pq.2 st.ringSelf [(pos, atom)] h4]
      exact ⟨h1, h2, h3, h4⟩
    · rw [List.mem_singleton.mp hr2]
      have hQ1 : (st.complements ++ [(initPos, atom), (pos, openAtom)]).lookup initPos
          = some atom :=
        lookup_concat2_left initPos pos atom openAtom st.complements hCompInit (by omega)
      have hQ2 : (st.complements ++ [(initPos, atom), (pos, openAtom)]).lookup pos
          = some openAtom :=
        lookup_concat2_right initPos pos atom openAtom st.complements hCompPos (by omega)
      have hR1 : (st.ringSelf ++ [(pos, atom)]).lookup pos = some atom :=
        lookup_concat_self pos atom st.ringSelf hSelfPos
      refine ⟨?_, ?_, ?_, ?_⟩
      · rw [hQ1, hR1]
      · rw [hQ2, hopen]
      · rw [hopen]
        rfl
      · rw [hR1]
        rfl

/-- Any successful `_RING` iteration preserves the loop invariant. -/
theorem ringStep_inv (s : List Char) (pos : Nat) (c : Char) (st st2 : RingState)
    (hget : s.get? pos = some c) (h : ringStep s pos c st = some st2)
    (inv : RingI s pos st) : RingI s (pos + 1) st2 := by
  rcases ringStep_cases s pos c st st2 h with
    ⟨hnum, he, hr, hc, ho, hcl, hp⟩ |
    ⟨hnum, hlook, atom, he, hr, hc, ho, hcl, hp⟩ |
    ⟨hnum, initPos, atom, openAtom, hlook, hopen, he, hr, hc, ho, hcl, hp⟩
  · exact RingI_skip s pos c st st2 hget hnum he hr hc ho hcl hp inv
  · exact RingI_open s pos c atom st st2 hget hnum hlook he hr hc ho hcl hp inv
  · exact RingI_close s pos c initPos atom openAtom st st2 hget hnum hlook hopen
      he hr hc ho hcl hp inv

/-- The `_RING` loop carries the invariant to a state past the end of the
string. -/
theorem ringAux_inv (s : List Char) :
    ∀ (fuel pos : Nat) (st st2 : RingState),
      ringAux s fuel pos st = some st2 → RingI s pos st →
      ∃ n, s.length ≤ n ∧ RingI s n st2 := by
  intro fuel
  induction fuel with
  | zero =>
    intro pos st st2 h
    rw [ringAux] at h
    exact Option.noConfusion h
  | succ f ih =>
    intro pos st st2 h inv
    rw [ringAux] at h
    rcases hga : s.get? pos with - | c
    · simp only [hga] at h
      obtain rfl : st = st2 := Option.some_inj.mp h
      exact ⟨pos, List.get?_eq_none.mp hga, inv⟩
    · simp only [hga] at h
      rcases hstep : ringStep s pos c st with - | stm
      · rw [hstep] at h
        exact Option.noConfusion h
      · rw [hstep] at h
        exact ih (pos + 1) stm st2 h (ringStep_inv s pos c st stm hga hstep inv)

/-- The initial `_RING` state satisfies the loop invariant. -/
theorem RingI_init (s : List Char) : RingI s 0 ⟨-1, [], [], [], [], [], [], []⟩ := by
  constructor <;> simp [occUpTo, List.lookup, chunk2]

theorem ringScan_inv (s : List Char) (rs : RingState) (h : ringScan s = some rs) :
    ∃ n, s.length ≤ n ∧ RingI s n rs := by
  rw [ringScan] at h
  exact ringAux_inv s (s.length + 1) 0 _ rs h (RingI_init s)

/-- When every digit occurs an even number of times, the pending map of a
successful `_RING` scan ends empty. -/
theorem ringScan_evaluated_nil (s : List Char) (rs : RingState)
    (h : ringScan s = some rs)
    (hev : ∀ d ∈ NUMBERS, Even ((occAll d s).length)) : rs.evaluated = [] := by
  obtain ⟨n, hn, inv⟩ := ringScan_inv s rs h
  rcases he : rs.evaluated with - | ⟨⟨k, v⟩, rest⟩
  · rfl
  · exfalso
    have hk : k ∈ NUMBERS := inv.keysNum (k, v) (by rw [he]; exact List.mem_cons_self _ _)
    have hlook : rs.evaluated.lookup k = some v := by
      rw [he]
      simp [List.lookup]
    have hpe := inv.pendEq k hk
    rw [occUpTo_ge_len k s n hn] at hpe
    have hev2 : 2 ∣ (occAll k s).length := (hev k hk).two_dvd
    rw [if_pos hev2, hlook] at hpe
    exact Option.noConfusion hpe

theorem atoms_lower_or_upper : ∀ c ∈ ATOMS, pyLower c = true ∨ pyUpper c = true := by
  decide

/-- The mixed-case `_RING_COUNTS` loop classifies every opened ring junction
into exactly one of the two counts. -/
theorem ringCountsLoop_sum (s : List Char) (rs : RingState) :
    ∀ (l : List Nat) (a n a2 n2 : ℚ),
      ringCountsLoop s rs l a n = some (a2, n2) →
      a2 + n2 = a + n + (l.length : ℚ) := by
  intro l
  induction l with
  | nil =>
    intro a n a2 n2 h
    rw [ringCountsLoop] at h
    cases Option.some_inj.mp h
    simp
  | cons pos rest ih =>
    intro a n a2 n2 h
    rw [ringCountsLoop] at h
    split at h
    · exact Option.noConfusion h
    split at h
    · exact Option.noConfusion h
    split at h
    · split at h
      · exact Option.noConfusion h
      rename_i ch hch
      split at h
      · rename_i hin
        split at h
        · have H := ih _ _ _ _ h
          push_cast [List.length_cons] at H ⊢
          linarith
        · split at h
          · have H := ih _ _ _ _ h
            push_cast [List.length_cons] at H ⊢
            linarith
          · rename_i hnl hnu
            rcases atoms_lower_or_upper ch hin with hl | hu
            · exact absurd hl hnl
            · exact absurd hu hnu
      · have H := ih _ _ _ _ h
        push_cast [List.length_cons] at H ⊢
        linarith
    · split at h
      · split at h
        · exact Option.noConfusion h
        rename_i ch hch
        split at h
        · rename_i hin
          split at h
          · have H := ih _ _ _ _ h
            push_cast [List.length_cons] at H ⊢
            linarith
          · split at h
            · have H := ih _ _ _ _ h
              push_cast [List.length_cons] at H ⊢
              linarith
            · rename_i hnl hnu
              rcases atoms_lower_or_upper ch hin with hl | hu
              · exact absurd hl hnl
              · exact absurd hu hnu
        · have H := ih _ _ _ _ h
          push_cast [List.length_cons] at H ⊢
          linarith
      · have H := ih _ _ _ _ h
        push_cast [List.length_cons] at H ⊢
        linarith

/-- C1: for every successfully decoded input, the Molecule's `ringCount` is a
non-negative integer (a natural number cast into the rationals: the paired
ring junctions are always even in count), and
`aromaticCount + nonAromaticCount = ringCount`. -/
theorem claim_C1_ring_counts (raw name : List Char) (m : Molecule)
    (h : Molecule.construct raw name = some m) :
    (∃ k : ℕ, m.ringCount = (k : ℚ)) ∧
    m.aromaticCount + m.nonAromaticCount = m.ringCount := by
  obtain ⟨s0, rs, inc, counts, ast, bd, hs0, hrs, hinc, hcnt, hast, hbd, hm⟩ :=
    construct_parts raw name m h
  have hev := incides_even s0 inc hinc
  have hnil : rs.evaluated = [] := ringScan_evaluated_nil s0 rs hrs hev
  obtain ⟨n, hn, inv⟩ := ringScan_inv s0 rs hrs
  have hopc : rs.opens.length = rs.closes.length := by
    have h2 := inv.openLen
    rw [hnil] at h2
    simpa using h2
  have hself : rs.ringSelf.length = 2 * rs.opens.length := by
    have h2 := inv.selfLen
    omega
  have hrc : ((rs.ringSelf.length : ℚ) / 2) = ((rs.opens.length : ℕ) : ℚ) := by
    rw [hself]
    push_cast
    ring
  subst hm
  constructor
  · exact ⟨rs.opens.length, hrc⟩
  · show counts.1 + counts.2 = (rs.ringSelf.length : ℚ) / 2
    rw [ringCounts] at hcnt
    split at hcnt
    · cases Option.some_inj.mp hcnt
      simp
    split at hcnt
    · cases Option.some_inj.mp hcnt
      simp
    · obtain ⟨ca, cn⟩ := counts
      have H := ringCountsLoop_sum s0 rs rs.opens 0 0 ca cn hcnt
      rw [hrc]
      simpa using H

/-- Witness for C1 at the empty input — the only input the source constructor
decodes: `ringCount = 0` and the two partial counts add up to it. -/
theorem claim_C1_witness :
    (∃ k : ℕ, ((Molecule.construct [] []).get (by decide)).ringCount = (k : ℚ)) ∧
    ((Molecule.construct [] []).get (by decide)).aromaticCount +
      ((Molecule.construct [] []).get (by decide)).nonAromaticCount =
      ((Molecule.construct [] []).get (by decide)).ringCount :=
  claim_C1_ring_counts [] [] _ (Option.some_get _).symm

/-- C4: ring pairing is a one-shot map keyed by digit value. For every
successful `_RING` scan and every digit, the recorded
`(openingPosition, closingPosition)` pairs of that digit are exactly the
consecutive pairing of its occurrence positions — 1st with 2nd, 3rd with 4th,
and so on, so a reuse after a close opens a new, unrelated ring —, every
recorded pair is a pair of same-digit occurrences, and the complement map
relates exactly these pairs in both directions: its keys are precisely the
pair endpoints, each key looking up its partner's ring atom. -/
theorem claim_C4_ring_pairing (s : List Char) (rs : RingState)
    (h : ringScan s = some rs) :
    (∀ d ∈ NUMBERS,
      rs.pairs.filter (fun pq => s.get? pq.1 == some d) = chunk2 (occAll d s)) ∧
    (∀ pq ∈ rs.pairs, ∃ d, d ∈ NUMBERS ∧ s.get? pq.1 = some d ∧ s.get? pq.2 = some d) ∧
    rs.complements.map Prod.fst = rs.pairs.flatMap (fun pq => [pq.1, pq.2]) ∧
    (∀ pq ∈ rs.pairs,
      rs.complements.lookup pq.1 = rs.ringSelf.lookup pq.2 ∧
      rs.complements.lookup pq.2 = rs.ringSelf.lookup pq.1 ∧
      (rs.complements.lookup pq.1).isSome ∧ (rs.complements.lookup pq.2).isSome) := by
  obtain ⟨n, hn, inv⟩ := ringScan_inv s rs h
  have hocc : ∀ d, occUpTo d s n = occAll d s := fun d => occUpTo_ge_len d s n hn
  refine ⟨fun d hd => ?_, inv.pairsChar, inv.compKeys, fun pq hpq => ?_⟩
  · rw [← hocc d]
    exact inv.pairsEq d hd
  · obtain ⟨h1, h2, h3, h4⟩ := inv.compRel pq hpq
    refine ⟨h1, h2, ?_, ?_⟩
    · rw [h1]
      exact h4
    · rw [h2]
      exact h3

/-- Witness for C4 at the concrete input `"C1CC1"`: the single digit pair is
`(1, 4)` and the complement map has exactly the keys 1 and 4, each direction
resolving the partner's atom. -/
theorem claim_C4_witness :
    (∀ d ∈ NUMBERS,
      ((ringScan ['C', '1', 'C', 'C', '1']).get (by decide)).pairs.filter
        (fun pq => ['C', '1', 'C', 'C', '1'].get? pq.1 == some d) =
      chunk2 (occAll d ['C', '1', 'C', 'C', '1'])) ∧
    (∀ pq ∈ ((ringScan ['C', '1', 'C', 'C', '1']).get (by decide)).pairs,
      ∃ d, d ∈ NUMBERS ∧ ['C', '1', 'C', 'C', '1'].get? pq.1 = some d ∧
        ['C', '1', 'C', 'C', '1'].get? pq.2 = some d) ∧
    ((ringScan ['C', '1', 'C', 'C', '1']).get (by decide)).complements.map Prod.fst =
      ((ringScan ['C', '1', 'C', 'C', '1']).get (by decide)).pairs.flatMap
        (fun pq => [pq.1, pq.2]) ∧
    (∀ pq ∈ ((ringScan ['C', '1', 'C', 'C', '1']).get (by decide)).pairs,
      ((ringScan ['C', '1', 'C', 'C', '1']).get (by decide)).complements.lookup pq.1 =
        ((ringScan ['C', '1', 'C', 'C', '1']).get (by decide)).ringSelf.lookup pq.2 ∧
      ((ringScan ['C', '1', 'C', 'C', '1']).get (by decide)).complements.lookup pq.2 =
        ((ringScan ['C', '1', 'C', 'C', '1']).get (by decide)).ringSelf.lookup pq.1 ∧
      (((ringScan ['C', '1', 'C', 'C', '1']).get (by decide)).complements.lookup pq.1).isSome ∧
      (((ringScan ['C', '1', 'C', 'C', '1']).get (by decide)).complements.lookup pq.2).isSome) :=
  claim_C4_ring_pairing ['C', '1', 'C', 'C', '1'] _ (Option.some_get _).symm

end IFG
